import Mathlib

/-!
# Shallow embedding of the Orga task-scheduling engine

This file embeds, in Lean 4, the dependency-graph and scheduling core of the
Orga project-management application and proves properties of it:

* cycle detection on dependency edges
  (`orga/orga/doctype/orga_task/orga_task.py`, `validate_dependencies` /
  `_creates_dependency_cycle`),
* the blocked-status resolver (`update_blocked_status`),
* the critical-path calculation (`orga/orga/api/project.py`,
  `get_critical_path`),
* cascade preview / apply / reschedule (`orga/orga/api/task.py`,
  `preview_cascade`, `apply_cascade`, `reschedule_dependents`),
* auto-advance of successors on completion
  (`_advance_successors_on_completion`),
* hammock date recalculation (`recalculate_hammock_dates`),
* fractional-order reordering (`orga/orga/api/gantt.py`, `reorder_item`).

Modelling conventions: calendar dates become integer day numbers (`Date :=
Int`); every piece of date arithmetic in the source is day-based, so date
subtraction, `add_days` and comparisons translate directly.  Database rows
become lists inside a `DB` structure; `frappe.db.get_value` becomes an
`Option`-valued lookup.  Python's `frappe.throw` becomes `Except`.  Sort keys
(Python floats) are modelled as rationals `ℚ`: every statement proved about
them concerns the exact arithmetic of the formulas in the source, not IEEE
rounding.
-/

namespace Orga

/-- Task status values of the `Orga Task` doctype. -/
inductive Status
  | opn
  | inProgress
  | review
  | completed
  | cancelled
deriving DecidableEq, Repr

/-- Dependency types of the `Orga Task Dependency` child table
(Finish to Start / Start to Start / Finish to Finish / Start to Finish). -/
inductive DepType
  | fs
  | ss
  | ff
  | sf
deriving DecidableEq, Repr

/-- Dates as integer day numbers. -/
abbrev Date := Int

/-- One row of the `Orga Task Dependency` child table: `parent` is the task
holding the row, `dependsOn` the task it depends on. -/
structure DepRow where
  parent : String
  dependsOn : String
  depType : DepType
  lagDays : Int
deriving DecidableEq, Repr

/-- The fields of an `Orga Task` document that the scheduling engine reads. -/
structure Task where
  name : String
  project : Option String := none
  status : Status := .opn
  startDate : Option Date := none
  dueDate : Option Date := none
  taskGroup : Option String := none
  dependsOnGroup : Option String := none
  schedulingType : Option String := none
  isBlocked : Bool := false
deriving DecidableEq, Repr

/-- The fields of an `Orga Project` document that the engine reads. -/
structure Project where
  name : String
  startDate : Option Date := none
  endDate : Option Date := none
  dependencyMode : Option String := none
deriving DecidableEq, Repr

/-- The database state seen by the engine: task rows, dependency rows and
project rows. -/
structure DB where
  tasks : List Task
  deps : List DepRow
  projects : List Project := []
deriving DecidableEq, Repr

/-- `frappe.db.get_value("Orga Task", n, ...)`: first task row named `n`. -/
def lookupTask (db : DB) (n : String) : Option Task :=
  db.tasks.find? (fun t => t.name == n)

/-- Status of task `n`, `none` when the task does not exist. -/
def statusOf (db : DB) (n : String) : Option Status :=
  (lookupTask db n).map (·.status)

/-- Start date of task `n` (`none` when missing or unset). -/
def startOf (db : DB) (n : String) : Option Date :=
  (lookupTask db n).bind (·.startDate)

/-- Due date of task `n` (`none` when missing or unset). -/
def dueOf (db : DB) (n : String) : Option Date :=
  (lookupTask db n).bind (·.dueDate)

/-! ## Blocked status (`OrgaTask.update_blocked_status`)

The source walks the task's own `depends_on` rows: any Finish-to-Start row
whose predecessor's stored status is not `Completed` marks the task blocked.
Otherwise, when `depends_on_group` and `project` are both set, the task is
blocked when some *other* task of the same project whose `task_group` equals
`depends_on_group` has a status outside {Completed, Cancelled}. -/

/-- First phase of `update_blocked_status`: some Finish-to-Start row of the
task's own `depends_on` table has a predecessor whose stored status is not
`Completed`. -/
def fsBlocked (db : DB) (selfDeps : List DepRow) : Bool :=
  selfDeps.any (fun d =>
    d.depType == DepType.fs && statusOf db d.dependsOn != some Status.completed)

/-- Second phase of `update_blocked_status`: `depends_on_group` and `project`
are both set and the count of other tasks of the project whose `task_group`
equals the group and whose status is outside {Completed, Cancelled} is
positive. -/
def groupBlocked (db : DB) (self : Task) : Bool :=
  match self.dependsOnGroup, self.project with
  | some g, some p =>
      decide (0 < (db.tasks.filter (fun t =>
        t.project == some p && t.taskGroup == some g &&
        !(t.status == Status.completed || t.status == Status.cancelled) &&
        t.name != self.name)).length)
  | _, _ => false

/-- Embeds `OrgaTask.update_blocked_status`.  `self` is the document being
validated and `selfDeps` its in-memory `depends_on` child rows; the result is
the value stored into `is_blocked`. -/
def updateBlockedStatus (db : DB) (self : Task) (selfDeps : List DepRow) : Bool :=
  if fsBlocked db selfDeps then true else groupBlocked db self

end Orga

namespace Orga

/-- C2: for a task belonging to a project, the computed blocked flag is true
iff some Finish-to-Start predecessor row has stored status ≠ Completed, or
`depends_on_group` is set and some other task of the same project with
`task_group` equal to that group has status outside {Completed, Cancelled}. -/
theorem updateBlockedStatus_iff (db : DB) (self : Task) (selfDeps : List DepRow)
    (p : String) (hp : self.project = some p) :
    updateBlockedStatus db self selfDeps = true ↔
      ((∃ d ∈ selfDeps, d.depType = DepType.fs ∧
          statusOf db d.dependsOn ≠ some Status.completed) ∨
        (∃ g, self.dependsOnGroup = some g ∧
          ∃ t ∈ db.tasks, t.name ≠ self.name ∧ t.project = self.project ∧
            t.taskGroup = some g ∧
            t.status ≠ Status.completed ∧ t.status ≠ Status.cancelled)) := by
  have hor : updateBlockedStatus db self selfDeps =
      (fsBlocked db selfDeps || groupBlocked db self) := by
    cases h : fsBlocked db selfDeps <;> simp [updateBlockedStatus, h]
  have hfs : fsBlocked db selfDeps = true ↔
      (∃ d ∈ selfDeps, d.depType = DepType.fs ∧
        statusOf db d.dependsOn ≠ some Status.completed) := by
    simp [fsBlocked, List.any_eq_true]
  have hgr : groupBlocked db self = true ↔
      (∃ g, self.dependsOnGroup = some g ∧
        ∃ t ∈ db.tasks, t.name ≠ self.name ∧ t.project = self.project ∧
          t.taskGroup = some g ∧
          t.status ≠ Status.completed ∧ t.status ≠ Status.cancelled) := by
    rcases hg : self.dependsOnGroup with _ | g
    · simp only [groupBlocked, hg, hp, Bool.false_eq_true, false_iff]
      rintro ⟨g, hgg, -⟩
      cases hgg
    · simp only [groupBlocked, hg, hp]
      rw [decide_eq_true_iff, List.length_pos_iff_exists_mem]
      constructor
      · rintro ⟨t, ht⟩
        rw [List.mem_filter] at ht
        have hcond := ht.2
        simp only [Bool.and_eq_true, beq_iff_eq, bne_iff_ne, ne_eq,
          Bool.not_eq_true', Bool.or_eq_false_iff, beq_eq_false_iff_ne] at hcond
        obtain ⟨⟨⟨hproj, hgrp⟩, hst⟩, hname⟩ := hcond
        exact ⟨g, rfl, t, ht.1, hname, hproj, hgrp, hst.1, hst.2⟩
      · rintro ⟨g', hg', t, ht, hname, hproj, hgrp, hst1, hst2⟩
        have hgg : g = g' := by injection hg'
        refine ⟨t, List.mem_filter.mpr ⟨ht, ?_⟩⟩
        simp [hproj, hgg ▸ hgrp, hst1, hst2, hname]
  rw [hor, Bool.or_eq_true, hfs, hgr]

/-- Witness for `updateBlockedStatus_iff` at a concrete database: task `T`
(in project `P`) has one Finish-to-Start dependency on an open task `A`, so
it is blocked. -/
theorem updateBlockedStatus_iff_witness :
    let tA : Task := { name := "A", project := some "P" }
    let tT : Task := { name := "T", project := some "P" }
    let db : DB := { tasks := [tA, tT], deps := [] }
    let row : DepRow :=
      { parent := "T", dependsOn := "A", depType := DepType.fs, lagDays := 0 }
    updateBlockedStatus db tT [row] = true ∧ tT.project = some "P" := by
  constructor
  · exact (updateBlockedStatus_iff _ _ _ "P" rfl).mpr
      (Or.inl ⟨_, List.mem_singleton.mpr rfl, rfl, by decide⟩)
  · rfl

/-! ## Hammock recalculation (`OrgaTask.recalculate_hammock_dates`)

The source scans the task's own Finish-to-Start `depends_on` rows keeping the
running maximum of `predecessor_due + 1 + lag`, scans the Finish-to-Start
rows that point at the task keeping the running minimum of
`successor_start - 1 - lag`, and writes the pair only when both anchors exist,
the max is ≤ the min, and the pair differs from the currently stored dates
(`getdate` maps an unset date to today, which the embedding threads through
as the `today` parameter). -/

/-- One step of the running-maximum accumulation in the predecessor loop
(`if pred_end is None or candidate > pred_end`). -/
def foldMaxStep (acc : Option Date) (c : Date) : Option Date :=
  match acc with
  | none => some c
  | some pe => if c > pe then some c else some pe

/-- One step of the running-minimum accumulation in the successor loop
(`if succ_start is None or candidate < succ_start`). -/
def foldMinStep (acc : Option Date) (c : Date) : Option Date :=
  match acc with
  | none => some c
  | some ss => if c < ss then some c else some ss

/-- The predecessor loop of `recalculate_hammock_dates`: running maximum of
`pred_due + 1 + lag` over the Finish-to-Start rows whose predecessor has a
recorded due date. -/
def hammockPredEnd (db : DB) (selfDeps : List DepRow) : Option Date :=
  selfDeps.foldl (fun acc d =>
    if d.depType == DepType.fs then
      match dueOf db d.dependsOn with
      | some predDue => foldMaxStep acc (predDue + 1 + d.lagDays)
      | none => acc
    else acc) none

/-- The successor query of `recalculate_hammock_dates`: Finish-to-Start
dependency rows pointing at the task. -/
def hammockSuccRows (db : DB) (selfName : String) : List DepRow :=
  db.deps.filter (fun r => r.dependsOn == selfName && r.depType == DepType.fs)

/-- The successor loop of `recalculate_hammock_dates`: running minimum of
`succ_start - 1 - lag` over Finish-to-Start successors with a recorded
start date. -/
def hammockSuccStart (db : DB) (selfName : String) : Option Date :=
  (hammockSuccRows db selfName).foldl (fun acc r =>
    match startOf db r.parent with
    | some s => foldMinStep acc (s - 1 - r.lagDays)
    | none => acc) none

/-- The list of candidate values scanned by the predecessor loop. -/
def hammockPredCands (db : DB) (selfDeps : List DepRow) : List Date :=
  selfDeps.filterMap (fun d =>
    if d.depType == DepType.fs then
      (dueOf db d.dependsOn).map (fun predDue => predDue + 1 + d.lagDays)
    else none)

/-- The list of candidate values scanned by the successor loop. -/
def hammockSuccCands (db : DB) (selfName : String) : List Date :=
  (hammockSuccRows db selfName).filterMap (fun r =>
    (startOf db r.parent).map (fun s => s - 1 - r.lagDays))

/-- Embeds `OrgaTask.recalculate_hammock_dates`, returning the final
`(start_date, due_date)` pair of the task.  `today` stands for `nowdate()`:
`getdate` of an unset date yields today. -/
def recalculateHammockDates (today : Date) (db : DB) (self : Task)
    (selfDeps : List DepRow) : Option Date × Option Date :=
  if self.schedulingType != some "Hammock" then (self.startDate, self.dueDate)
  else
    match hammockPredEnd db selfDeps, hammockSuccStart db self.name with
    | some pe, some ss =>
        if pe ≤ ss then
          if self.startDate.getD today != pe || self.dueDate.getD today != ss then
            (some pe, some ss)
          else (self.startDate, self.dueDate)
        else (self.startDate, self.dueDate)
    | some _, none => (self.startDate, self.dueDate)
    | none, _ => (self.startDate, self.dueDate)

/-- Folding `foldMaxStep` from a set accumulator yields an element that is the
maximum of the accumulator and the list. -/
theorem foldMaxStep_some_spec (l : List Date) (a : Date) :
    ∃ m, l.foldl foldMaxStep (some a) = some m ∧ (m = a ∨ m ∈ l) ∧ a ≤ m ∧
      ∀ c ∈ l, c ≤ m := by
  induction l generalizing a with
  | nil => exact ⟨a, rfl, Or.inl rfl, le_refl a, by simp⟩
  | cons c l ih =>
      have hstep : foldMaxStep (some a) c = some (max a c) := by
        by_cases h : c > a
        · simp [foldMaxStep, h, max_eq_right (le_of_lt h)]
        · simp [foldMaxStep, h, max_eq_left (le_of_not_lt h)]
      obtain ⟨m, hm, hmem, hle, hall⟩ := ih (max a c)
      refine ⟨m, by simpa [hstep] using hm, ?_, ?_, ?_⟩
      · rcases hmem with h | h
        · rcases max_cases a c with ⟨he, -⟩ | ⟨he, -⟩
          · exact Or.inl (h.trans he)
          · exact Or.inr (by rw [h, he]; exact List.mem_cons_self _ _)
        · exact Or.inr (List.mem_cons_of_mem _ h)
      · exact (le_max_left a c).trans hle
      · intro x hx
        rcases List.mem_cons.mp hx with h | h
        · exact h ▸ (le_max_right a c).trans hle
        · exact hall x h

/-- Folding `foldMinStep` from a set accumulator yields an element that is the
minimum of the accumulator and the list. -/
theorem foldMinStep_some_spec (l : List Date) (a : Date) :
    ∃ m, l.foldl foldMinStep (some a) = some m ∧ (m = a ∨ m ∈ l) ∧ m ≤ a ∧
      ∀ c ∈ l, m ≤ c := by
  induction l generalizing a with
  | nil => exact ⟨a, rfl, Or.inl rfl, le_refl a, by simp⟩
  | cons c l ih =>
      have hstep : foldMinStep (some a) c = some (min a c) := by
        by_cases h : c < a
        · simp [foldMinStep, h, min_eq_right (le_of_lt h)]
        · simp [foldMinStep, h, min_eq_left (le_of_not_lt h)]
      obtain ⟨m, hm, hmem, hle, hall⟩ := ih (min a c)
      refine ⟨m, by simpa [hstep] using hm, ?_, ?_, ?_⟩
      · rcases hmem with h | h
        · rcases min_cases a c with ⟨he, -⟩ | ⟨he, -⟩
          · exact Or.inl (h.trans he)
          · exact Or.inr (by rw [h, he]; exact List.mem_cons_self _ _)
        · exact Or.inr (List.mem_cons_of_mem _ h)
      · exact hle.trans (min_le_left a c)
      · intro x hx
        rcases List.mem_cons.mp hx with h | h
        · exact h ▸ hle.trans (min_le_right a c)
        · exact hall x h

/-- Folding `foldMaxStep` from `none` yields `none` exactly on the empty list,
otherwise the maximum of the list. -/
theorem foldMax_none_spec (l : List Date) :
    (l = [] ∧ l.foldl foldMaxStep none = none) ∨
      ∃ m, l.foldl foldMaxStep none = some m ∧ m ∈ l ∧ ∀ c ∈ l, c ≤ m := by
  cases l with
  | nil => exact Or.inl ⟨rfl, rfl⟩
  | cons c l =>
      obtain ⟨m, hm, hmem, hle, hall⟩ := foldMaxStep_some_spec l c
      refine Or.inr ⟨m, ?_, ?_, ?_⟩
      · simpa [foldMaxStep] using hm
      · rcases hmem with h | h
        · simp [h]
        · exact List.mem_cons_of_mem _ h
      · intro x hx
        rcases List.mem_cons.mp hx with h | h
        · exact h ▸ hle
        · exact hall x h

/-- Folding `foldMinStep` from `none` yields `none` exactly on the empty list,
otherwise the minimum of the list. -/
theorem foldMin_none_spec (l : List Date) :
    (l = [] ∧ l.foldl foldMinStep none = none) ∨
      ∃ m, l.foldl foldMinStep none = some m ∧ m ∈ l ∧ ∀ c ∈ l, m ≤ c := by
  cases l with
  | nil => exact Or.inl ⟨rfl, rfl⟩
  | cons c l =>
      obtain ⟨m, hm, hmem, hle, hall⟩ := foldMinStep_some_spec l c
      refine Or.inr ⟨m, ?_, ?_, ?_⟩
      · simpa [foldMinStep] using hm
      · rcases hmem with h | h
        · simp [h]
        · exact List.mem_cons_of_mem _ h
      · intro x hx
        rcases List.mem_cons.mp hx with h | h
        · exact h ▸ hle
        · exact hall x h

/-- The predecessor loop equals the candidate-list fold, for any starting
accumulator. -/
theorem hammockPredEnd_fold_general (db : DB) (ds : List DepRow) :
    ∀ acc : Option Date,
      ds.foldl (fun acc d =>
        if d.depType == DepType.fs then
          match dueOf db d.dependsOn with
          | some predDue => foldMaxStep acc (predDue + 1 + d.lagDays)
          | none => acc
        else acc) acc =
      (ds.filterMap (fun d =>
        if d.depType == DepType.fs then
          (dueOf db d.dependsOn).map (fun predDue => predDue + 1 + d.lagDays)
        else none)).foldl foldMaxStep acc := by
  induction ds with
  | nil => intro acc; rfl
  | cons d ds ih =>
      intro acc
      by_cases hfs : d.depType == DepType.fs
      · cases hdue : dueOf db d.dependsOn with
        | none => simp only [List.foldl_cons, List.filterMap_cons, hfs, hdue,
            if_true, Option.map_none']; exact ih acc
        | some predDue => simp only [List.foldl_cons, List.filterMap_cons, hfs,
            hdue, if_true, Option.map_some']; exact ih _
      · simp only [List.foldl_cons, List.filterMap_cons, hfs,
          Bool.false_eq_true, if_false]
        exact ih acc

/-- The predecessor loop equals the candidate-list fold. -/
theorem hammockPredEnd_eq_fold (db : DB) (selfDeps : List DepRow) :
    hammockPredEnd db selfDeps =
      (hammockPredCands db selfDeps).foldl foldMaxStep none :=
  hammockPredEnd_fold_general db selfDeps none

/-- The successor loop equals the candidate-list fold, for any starting
accumulator. -/
theorem hammockSuccStart_fold_general (db : DB) (rows : List DepRow) :
    ∀ acc : Option Date,
      rows.foldl (fun acc r =>
        match startOf db r.parent with
        | some s => foldMinStep acc (s - 1 - r.lagDays)
        | none => acc) acc =
      (rows.filterMap (fun r =>
        (startOf db r.parent).map (fun s => s - 1 - r.lagDays))).foldl
          foldMinStep acc := by
  induction rows with
  | nil => intro acc; rfl
  | cons r rows ih =>
      intro acc
      cases hs : startOf db r.parent with
      | none => simp only [List.foldl_cons, List.filterMap_cons, hs,
          Option.map_none']; exact ih acc
      | some s => simp only [List.foldl_cons, List.filterMap_cons, hs,
          Option.map_some']; exact ih _

/-- The successor loop equals the candidate-list fold. -/
theorem hammockSuccStart_eq_fold (db : DB) (selfName : String) :
    hammockSuccStart db selfName =
      (hammockSuccCands db selfName).foldl foldMinStep none :=
  hammockSuccStart_fold_general db (hammockSuccRows db selfName) none

end Orga

namespace Orga

/-- C9: for a Hammock task, recalculation commits exactly the pair (maximum
over FS predecessors of `pred_due + 1 + lag`, minimum over FS successors of
`succ_start - 1 - lag`): the stored dates change only when both anchors
resolve and the derived start is ≤ the derived end, and in every other case
(a missing anchor, or derived start > derived end) the task's dates are left
unchanged; the embedding is a total function, so no error is raised. -/
theorem recalculateHammockDates_spec (today : Date) (db : DB) (self : Task)
    (selfDeps : List DepRow) (hH : self.schedulingType = some "Hammock") :
    (recalculateHammockDates today db self selfDeps ≠ (self.startDate, self.dueDate) →
      ∃ pe ss,
        (pe ∈ hammockPredCands db selfDeps ∧
          ∀ c ∈ hammockPredCands db selfDeps, c ≤ pe) ∧
        (ss ∈ hammockSuccCands db self.name ∧
          ∀ c ∈ hammockSuccCands db self.name, ss ≤ c) ∧
        pe ≤ ss ∧
        recalculateHammockDates today db self selfDeps = (some pe, some ss)) ∧
    ((¬ ∃ pe ss,
        (pe ∈ hammockPredCands db selfDeps ∧
          ∀ c ∈ hammockPredCands db selfDeps, c ≤ pe) ∧
        (ss ∈ hammockSuccCands db self.name ∧
          ∀ c ∈ hammockSuccCands db self.name, ss ≤ c) ∧
        pe ≤ ss) →
      recalculateHammockDates today db self selfDeps =
        (self.startDate, self.dueDate)) := by
  have e1 : (self.schedulingType != some "Hammock") = false := by
    rw [hH]; simp
  rcases foldMax_none_spec (hammockPredCands db selfDeps) with
    ⟨-, hfn⟩ | ⟨pe, hfs', hpem, hpeub⟩
  · have hpeq : hammockPredEnd db selfDeps = none := by
      rw [hammockPredEnd_eq_fold]; exact hfn
    have hr : recalculateHammockDates today db self selfDeps =
        (self.startDate, self.dueDate) := by
      unfold recalculateHammockDates
      rw [e1, hpeq]
      simp
    exact ⟨fun hne => absurd hr hne, fun _ => hr⟩
  · have hpeq : hammockPredEnd db selfDeps = some pe := by
      rw [hammockPredEnd_eq_fold]; exact hfs'
    rcases foldMin_none_spec (hammockSuccCands db self.name) with
      ⟨-, hgn⟩ | ⟨ss, hgs, hssm, hsslb⟩
    · have hseq : hammockSuccStart db self.name = none := by
        rw [hammockSuccStart_eq_fold]; exact hgn
      have hr : recalculateHammockDates today db self selfDeps =
          (self.startDate, self.dueDate) := by
        unfold recalculateHammockDates
        rw [e1, hpeq, hseq]
        simp
      exact ⟨fun hne => absurd hr hne, fun _ => hr⟩
    · have hseq : hammockSuccStart db self.name = some ss := by
        rw [hammockSuccStart_eq_fold]; exact hgs
      by_cases hle : pe ≤ ss
      · have hr : recalculateHammockDates today db self selfDeps =
            (if self.startDate.getD today != pe ∨ self.dueDate.getD today != ss then
              ((some pe, some ss) : Option Date × Option Date)
            else (self.startDate, self.dueDate)) := by
          unfold recalculateHammockDates
          rw [e1, hpeq, hseq]
          simp [hle]
        constructor
        · intro hne
          refine ⟨pe, ss, ⟨hpem, hpeub⟩, ⟨hssm, hsslb⟩, hle, ?_⟩
          rw [hr]
          rw [hr] at hne
          by_cases hcond : self.startDate.getD today != pe ∨ self.dueDate.getD today != ss
          · rw [if_pos hcond]
          · rw [if_neg hcond] at hne
            exact absurd rfl hne
        · intro hnex
          exact absurd ⟨pe, ss, ⟨hpem, hpeub⟩, ⟨hssm, hsslb⟩, hle⟩ hnex
      · have hr : recalculateHammockDates today db self selfDeps =
            (self.startDate, self.dueDate) := by
          unfold recalculateHammockDates
          rw [e1, hpeq, hseq]
          simp [hle]
        exact ⟨fun hne => absurd hr hne, fun _ => hr⟩

/-- Witness for `recalculateHammockDates_spec`: a hammock task `H` with one
FS predecessor `A` (due day 5) and one FS successor `B` (start day 10) is
stretched to `[6, 9]`. -/
theorem recalculateHammockDates_spec_witness :
    let tA : Task := { name := "A", dueDate := some 5 }
    let tB : Task := { name := "B", startDate := some 10 }
    let tH : Task := { name := "H", schedulingType := some "Hammock" }
    let depBH : DepRow :=
      { parent := "B", dependsOn := "H", depType := DepType.fs, lagDays := 0 }
    let db : DB := { tasks := [tA, tB, tH], deps := [depBH] }
    let row : DepRow :=
      { parent := "H", dependsOn := "A", depType := DepType.fs, lagDays := 0 }
    ∃ pe ss,
      (pe ∈ hammockPredCands db [row] ∧
        ∀ c ∈ hammockPredCands db [row], c ≤ pe) ∧
      (ss ∈ hammockSuccCands db tH.name ∧
        ∀ c ∈ hammockSuccCands db tH.name, ss ≤ c) ∧
      pe ≤ ss ∧
      recalculateHammockDates 0 db tH [row] = (some pe, some ss) := by
  intro tA tB tH depBH db row
  exact (recalculateHammockDates_spec 0 db tH [row] rfl).1 (by decide)

end Orga

namespace Orga

/-! ## Cycle detection (`OrgaTask.validate_dependencies` /
`OrgaTask._creates_dependency_cycle`)

`_creates_dependency_cycle(t, visited)` returns true when `t` is the task
being saved, false when `t` was already visited, and otherwise marks `t`
visited and recurses over the stored dependency rows of `t` (the visited set
is one shared, mutated object, so it threads through sibling calls).  The
Python recursion terminates because the visited set grows inside the finite
universe of row targets; the embedding makes that explicit with a `fuel`
argument that bounds the recursion depth, and `createsDependencyCycle` runs
the search with provably sufficient fuel (`edges.length + 2`). -/

/-- `frappe.get_all("Orga Task Dependency", filters={"parent": t})`, projected
to the `depends_on` column: the direct dependency targets of `t`. -/
def depsOf (edges : List DepRow) (t : String) : List String :=
  (edges.filter (fun e => e.parent == t)).map (fun e => e.dependsOn)

/-- One depends-on edge from `a` to `b` among the stored rows. -/
def DepStep (edges : List DepRow) (a b : String) : Prop :=
  ∃ e ∈ edges, e.parent = a ∧ e.dependsOn = b

/-- `b` is reachable from `a` following depends-on edges (`a` is transitively
dependent on `b`). -/
def Reaches (edges : List DepRow) (a b : String) : Prop :=
  Relation.ReflTransGen (DepStep edges) a b

/-- The depth-first search of `_creates_dependency_cycle`: `target` is the
task being saved (`self.name`), `t` the node under inspection and `V` the
shared visited set; the result carries the search verdict together with the
final visited set.  The sibling loop with early exit becomes a fold whose
state freezes once the verdict is true. -/
def cycleSearch (target : String) (edges : List DepRow) :
    Nat → String → Finset String → Bool × Finset String
  | 0, _, V => (false, V)
  | fuel + 1, t, V =>
    if t = target then (true, V)
    else if t ∈ V then (false, V)
    else (depsOf edges t).foldl
      (fun r d => if r.1 then r else cycleSearch target edges fuel d r.2)
      (false, insert t V)

/-- The finite universe of nodes the search starting at `t` can ever visit:
`t` itself and every row target. -/
def depTargets (edges : List DepRow) : Finset String :=
  (edges.map (fun e => e.dependsOn)).toFinset

/-- `nodeUniv edges t`: `t` together with every row target. -/
def nodeUniv (edges : List DepRow) (t : String) : Finset String :=
  insert t (depTargets edges)

/-- `_creates_dependency_cycle(start, set())`, run with fuel that provably
exceeds the visitable universe. -/
def createsDependencyCycle (target : String) (edges : List DepRow)
    (start : String) : Bool :=
  (cycleSearch target edges (edges.length + 2) start ∅).1

/-- Membership in `depsOf` is exactly one depends-on step. -/
theorem mem_depsOf {edges : List DepRow} {t d : String} :
    d ∈ depsOf edges t ↔ DepStep edges t d := by
  simp only [depsOf, List.mem_map, List.mem_filter, beq_iff_eq, DepStep]
  constructor
  · rintro ⟨e, ⟨he, hp⟩, hd⟩
    exact ⟨e, he, hp, hd⟩
  · rintro ⟨e, he, hp, hd⟩
    exact ⟨e, ⟨he, hp⟩, hd⟩

end Orga

namespace Orga

/-- A fold step never unfreezes a true verdict. -/
theorem cycleSearch_fold_frozen (target : String) (edges : List DepRow)
    (fuel : Nat) :
    ∀ (ds : List String) (r : Bool × Finset String), r.1 = true →
      ds.foldl (fun r d => if r.1 then r else cycleSearch target edges fuel d r.2)
        r = r := by
  intro ds
  induction ds with
  | nil => intro r _; rfl
  | cons d ds ih =>
      intro r hr
      simp only [List.foldl_cons, hr, if_true]
      exact ih r hr

/-- If the sibling fold ends with a true verdict, either it started true or
some sibling search returned true. -/
theorem cycleSearch_fold_true (target : String) (edges : List DepRow)
    (fuel : Nat) :
    ∀ (ds : List String) (r0 : Bool × Finset String),
      (ds.foldl (fun r d => if r.1 then r else cycleSearch target edges fuel d r.2)
        r0).1 = true →
      r0.1 = true ∨ ∃ d ∈ ds, ∃ V, (cycleSearch target edges fuel d V).1 = true := by
  intro ds
  induction ds with
  | nil => intro r0 h; exact Or.inl h
  | cons d ds ih =>
      intro r0 h
      rw [List.foldl_cons] at h
      by_cases hr0 : r0.1 = true
      · exact Or.inl hr0
      · simp only [hr0, if_false] at h
        rcases ih _ h with h1 | ⟨d', hd', V, hV⟩
        · exact Or.inr ⟨d, List.mem_cons_self _ _, r0.2, h1⟩
        · exact Or.inr ⟨d', List.mem_cons_of_mem _ hd', V, hV⟩

/-- Soundness of the search: a true verdict exhibits a depends-on path from
the inspected node to the target. -/
theorem cycleSearch_sound (target : String) (edges : List DepRow) :
    ∀ (fuel : Nat) (t : String) (V : Finset String),
      (cycleSearch target edges fuel t V).1 = true → Reaches edges t target := by
  intro fuel
  induction fuel with
  | zero => intro t V h; simp [cycleSearch] at h
  | succ fuel ih =>
      intro t V h
      by_cases ht : t = target
      · exact ht ▸ Relation.ReflTransGen.refl
      · by_cases hv : t ∈ V
        · simp [cycleSearch, ht, hv] at h
        · simp only [cycleSearch, ht, if_false, hv] at h
          rcases cycleSearch_fold_true target edges fuel _ _ h with h1 | ⟨d, hd, V', hV'⟩
          · simp at h1
          · exact Relation.ReflTransGen.head (mem_depsOf.mp hd) (ih d V' hV')

end Orga

namespace Orga

/-- Every direct dependency target lies in the target universe. -/
theorem mem_depTargets_of_depsOf {edges : List DepRow} {t d : String}
    (h : d ∈ depsOf edges t) : d ∈ depTargets edges := by
  simp only [depsOf, List.mem_map, List.mem_filter] at h
  rcases h with ⟨e, ⟨he, -⟩, hd⟩
  simp only [depTargets, List.mem_toFinset, List.mem_map]
  exact ⟨e, he, hd⟩

/-- Sibling-fold analogue of `cycleSearch_false_spec`, with the single-node
specification at the same fuel supplied as a hypothesis. -/
theorem cycleSearch_fold_false_aux (target : String) (edges : List DepRow)
    (fuel : Nat)
    (hsingle : ∀ (t : String) (V V'' : Finset String),
      (nodeUniv edges t \ V).card < fuel →
      cycleSearch target edges fuel t V = (false, V'') →
      V ⊆ V'' ∧ t ∈ V'' ∧ t ≠ target ∧
        ∀ v ∈ V'' \ V, v ≠ target ∧ ∀ d, DepStep edges v d → d ∈ V'') :
    ∀ (ds : List String) (V V'' : Finset String),
      (∀ d ∈ ds, (nodeUniv edges d \ V).card < fuel) →
      (ds.foldl (fun r d => if r.1 then r else cycleSearch target edges fuel d r.2)
        (false, V)) = (false, V'') →
      V ⊆ V'' ∧ (∀ d ∈ ds, d ∈ V'' ∧ d ≠ target) ∧
        ∀ v ∈ V'' \ V, v ≠ target ∧ ∀ e, DepStep edges v e → e ∈ V'' := by
  intro ds
  induction ds with
  | nil =>
      intro V V'' _ hfold
      injection hfold with _ hV
      subst hV
      exact ⟨Finset.Subset.refl _, by simp, by simp⟩
  | cons d ds ih =>
      intro V V'' hfuel hfold
      rw [List.foldl_cons] at hfold
      rcases hres : cycleSearch target edges fuel d V with ⟨b, V1⟩
      rw [hres] at hfold
      simp only [Bool.false_eq_true, if_false] at hfold
      cases b with
      | true =>
          have := cycleSearch_fold_frozen target edges fuel ds (true, V1) rfl
          rw [this] at hfold
          injection hfold with hb _
          cases hb
      | false =>
          have h1 := hsingle d V V1 (hfuel d (List.mem_cons_self _ _)) hres
          obtain ⟨hVsub, hdV1, hdt, hcl1⟩ := h1
          have hfuel' : ∀ e ∈ ds, (nodeUniv edges e \ V1).card < fuel := by
            intro e he
            have hsub : nodeUniv edges e \ V1 ⊆ nodeUniv edges e \ V :=
              Finset.sdiff_subset_sdiff (Finset.Subset.refl _) hVsub
            exact lt_of_le_of_lt (Finset.card_le_card hsub)
              (hfuel e (List.mem_cons_of_mem _ he))
          have h2 := ih V1 V'' hfuel' hfold
          obtain ⟨hV1sub, hds, hcl2⟩ := h2
          refine ⟨hVsub.trans hV1sub, ?_, ?_⟩
          · intro e he
            rcases List.mem_cons.mp he with h | h
            · exact ⟨h ▸ hV1sub hdV1, h ▸ hdt⟩
            · exact hds e h
          · intro v hv
            rw [Finset.mem_sdiff] at hv
            by_cases hv1 : v ∈ V1
            · have hv' : v ∈ V1 \ V := Finset.mem_sdiff.mpr ⟨hv1, hv.2⟩
              obtain ⟨hvt, hvnext⟩ := hcl1 v hv'
              exact ⟨hvt, fun e he => hV1sub (hvnext e he)⟩
            · have hv' : v ∈ V'' \ V1 := Finset.mem_sdiff.mpr ⟨hv.1, hv1⟩
              exact hcl2 v hv'

/-- Completeness core: a false verdict yields a visited set that contains the
inspected node, avoids the target, and is closed under depends-on steps off
the initially visited part. -/
theorem cycleSearch_false_spec (target : String) (edges : List DepRow) :
    ∀ (fuel : Nat) (t : String) (V V'' : Finset String),
      (nodeUniv edges t \ V).card < fuel →
      cycleSearch target edges fuel t V = (false, V'') →
      V ⊆ V'' ∧ t ∈ V'' ∧ t ≠ target ∧
        ∀ v ∈ V'' \ V, v ≠ target ∧ ∀ d, DepStep edges v d → d ∈ V'' := by
  intro fuel
  induction fuel with
  | zero =>
      intro t V V'' hfuel _
      exact absurd hfuel (by omega)
  | succ fuel ih =>
      intro t V V'' hfuel hres
      by_cases ht : t = target
      · rw [cycleSearch, if_pos ht] at hres
        injection hres with hb _
        cases hb
      · by_cases hv : t ∈ V
        · rw [cycleSearch, if_neg ht, if_pos hv] at hres
          injection hres with _ hV
          subst hV
          refine ⟨Finset.Subset.refl _, hv, ht, by simp⟩
        · rw [cycleSearch, if_neg ht, if_neg hv] at hres
          have htN : t ∈ nodeUniv edges t \ V :=
            Finset.mem_sdiff.mpr ⟨Finset.mem_insert_self _ _, hv⟩
          have hcard : (nodeUniv edges t \ insert t V).card <
              (nodeUniv edges t \ V).card := by
            refine Finset.card_lt_card ?_
            rw [Finset.ssubset_iff_of_subset
              (Finset.sdiff_subset_sdiff (Finset.Subset.refl _)
                (Finset.subset_insert _ _))]
            exact ⟨t, htN, by simp⟩
          have hfuel' : ∀ d ∈ depsOf edges t,
              (nodeUniv edges d \ insert t V).card < fuel := by
            intro d hd
            have hNd : nodeUniv edges d ⊆ nodeUniv edges t := by
              have hdT : d ∈ depTargets edges := mem_depTargets_of_depsOf hd
              intro x hx
              rcases Finset.mem_insert.mp hx with h | h
              · exact Finset.mem_insert_of_mem (h ▸ hdT)
              · exact Finset.mem_insert_of_mem h
            have : (nodeUniv edges d \ insert t V).card ≤
                (nodeUniv edges t \ insert t V).card :=
              Finset.card_le_card
                (Finset.sdiff_subset_sdiff hNd (Finset.Subset.refl _))
            omega
          have h := cycleSearch_fold_false_aux target edges fuel ih
            (depsOf edges t) (insert t V) V'' hfuel' hres
          obtain ⟨hVsub, hds, hcl⟩ := h
          have htV'' : t ∈ V'' := hVsub (Finset.mem_insert_self _ _)
          refine ⟨(Finset.subset_insert _ _).trans hVsub, htV'', ht, ?_⟩
          intro v hv'
          rw [Finset.mem_sdiff] at hv'
          by_cases hvt : v = t
          · refine ⟨hvt ▸ ht, ?_⟩
            intro e he
            have he' : e ∈ depsOf edges t := mem_depsOf.mpr (hvt ▸ he)
            exact (hds e he').1
          · have : v ∈ V'' \ insert t V := by
              rw [Finset.mem_sdiff, Finset.mem_insert]
              exact ⟨hv'.1, by tauto⟩
            exact hcl v this

/-- A set closed under depends-on steps traps reachability. -/
theorem reaches_mem_of_closed (edges : List DepRow) (S : Finset String)
    (hclosed : ∀ v ∈ S, ∀ d, DepStep edges v d → d ∈ S) :
    ∀ {x y : String}, Reaches edges x y → x ∈ S → y ∈ S := by
  intro x y h hx
  induction h with
  | refl => exact hx
  | tail _ hstep ih => exact hclosed _ ih _ hstep

/-- `_creates_dependency_cycle(start, set())` returns true exactly when a
depends-on path leads from `start` back to the task being saved. -/
theorem createsDependencyCycle_iff (target : String) (edges : List DepRow)
    (start : String) :
    createsDependencyCycle target edges start = true ↔
      Reaches edges start target := by
  constructor
  · exact cycleSearch_sound target edges (edges.length + 2) start ∅
  · intro hreach
    by_contra hfalse
    rcases hres : cycleSearch target edges (edges.length + 2) start ∅ with ⟨b, V''⟩
    have hb : b = false := by
      cases b with
      | false => rfl
      | true =>
          exact absurd (by unfold createsDependencyCycle; rw [hres]) hfalse
    subst hb
    have hcard : (nodeUniv edges start \ ∅).card < edges.length + 2 := by
      rw [Finset.sdiff_empty]
      have h1 : (nodeUniv edges start).card ≤ (depTargets edges).card + 1 :=
        Finset.card_insert_le _ _
      have h2 : (depTargets edges).card ≤ (edges.map (fun e => e.dependsOn)).length :=
        List.toFinset_card_le _
      rw [List.length_map] at h2
      omega
    obtain ⟨-, hstart, -, hcl⟩ :=
      cycleSearch_false_spec target edges (edges.length + 2) start ∅ V'' hcard hres
    have hclosed : ∀ v ∈ V'', ∀ d, DepStep edges v d → d ∈ V'' := by
      intro v hv d hd
      exact (hcl v (by rwa [Finset.sdiff_empty])).2 d hd
    have htarget : target ∈ V'' :=
      reaches_mem_of_closed edges V'' hclosed hreach hstart
    exact (hcl target (by rwa [Finset.sdiff_empty])).1 rfl

end Orga

namespace Orga

/-- Embeds `OrgaTask.validate_dependencies`: walks the document's
`depends_on` rows; a row targeting the task itself throws, then a row whose
target transitively depends on the task throws; an empty row list passes. -/
def validateDependencies (selfName : String) (edges : List DepRow) :
    List DepRow → Except String Unit
  | [] => .ok ()
  | d :: rest =>
    if d.dependsOn = selfName then .error "Task cannot depend on itself"
    else if createsDependencyCycle selfName edges d.dependsOn then
      .error "Circular dependency detected"
    else validateDependencies selfName edges rest

/-- The save path that adds one dependency edge `(selfName depends_on
newRow.dependsOn)`: the document's rows — its stored rows `selfRows` plus the
new row — are validated against the stored row set `edges`; only a successful
validation writes the new row. -/
def addEdge (selfName : String) (edges selfRows : List DepRow)
    (newRow : DepRow) : Except String (List DepRow) :=
  match validateDependencies selfName edges (selfRows ++ [newRow]) with
  | .error e => .error e
  | .ok _ => .ok (edges ++ [newRow])

/-- Rows that already satisfy the dependency invariant pass through
validation, which therefore reduces to validating the new row alone. -/
theorem validateDependencies_append_ok (selfName : String)
    (edges : List DepRow) (selfRows : List DepRow) (r : DepRow)
    (hprev : ∀ d ∈ selfRows, d.dependsOn ≠ selfName ∧
      ¬ Reaches edges d.dependsOn selfName) :
    validateDependencies selfName edges (selfRows ++ [r]) =
      validateDependencies selfName edges [r] := by
  induction selfRows with
  | nil => rfl
  | cons d rest ih =>
      obtain ⟨h1, h2⟩ := hprev d (List.mem_cons_self _ _)
      have hc : createsDependencyCycle selfName edges d.dependsOn = false := by
        rw [Bool.eq_false_iff, ne_eq, createsDependencyCycle_iff]
        exact h2
      rw [List.cons_append]
      show (if d.dependsOn = selfName then Except.error "Task cannot depend on itself"
        else if createsDependencyCycle selfName edges d.dependsOn then
          Except.error "Circular dependency detected"
        else validateDependencies selfName edges (rest ++ [r])) =
        validateDependencies selfName edges [r]
      rw [if_neg h1, hc]
      simp only [Bool.false_eq_true, if_false]
      exact ih (fun e he => hprev e (List.mem_cons_of_mem _ he))

/-- C1: adding a dependency edge (task depends_on other) fails with a
validation error iff other equals the task or other is already transitively
dependent on the task (a depends-on path from other back to the task exists);
when validation fails no edge is written, and otherwise exactly the new edge
is appended.  The hypothesis states the documented invariant on the already
stored rows of the task: none targets the task itself or reaches back to it. -/
theorem addEdge_error_iff (selfName : String) (edges selfRows : List DepRow)
    (newRow : DepRow)
    (hprev : ∀ d ∈ selfRows, d.dependsOn ≠ selfName ∧
      ¬ Reaches edges d.dependsOn selfName) :
    ((∃ msg, addEdge selfName edges selfRows newRow = .error msg) ↔
        (newRow.dependsOn = selfName ∨
          Reaches edges newRow.dependsOn selfName)) ∧
    (¬ (newRow.dependsOn = selfName ∨
          Reaches edges newRow.dependsOn selfName) →
      addEdge selfName edges selfRows newRow = .ok (edges ++ [newRow])) := by
  have hv := validateDependencies_append_ok selfName edges selfRows newRow hprev
  have hval : validateDependencies selfName edges [newRow] =
      (if newRow.dependsOn = selfName then
        Except.error "Task cannot depend on itself"
      else if createsDependencyCycle selfName edges newRow.dependsOn then
        Except.error "Circular dependency detected"
      else Except.ok ()) := rfl
  unfold addEdge
  rw [hv, hval]
  by_cases h1 : newRow.dependsOn = selfName
  · rw [if_pos h1]
    exact ⟨⟨fun _ => Or.inl h1, fun _ => ⟨_, rfl⟩⟩,
      fun h => absurd (Or.inl h1) h⟩
  · rw [if_neg h1]
    cases hc : createsDependencyCycle selfName edges newRow.dependsOn with
    | true =>
        have hreach := (createsDependencyCycle_iff _ _ _).mp hc
        exact ⟨⟨fun _ => Or.inr hreach, fun _ => ⟨_, rfl⟩⟩,
          fun h => absurd (Or.inr hreach) h⟩
    | false =>
        have hnreach : ¬ Reaches edges newRow.dependsOn selfName := by
          rw [← createsDependencyCycle_iff selfName edges newRow.dependsOn]
          simp [hc]
        refine ⟨⟨?_, ?_⟩, fun _ => rfl⟩
        · rintro ⟨msg, hmsg⟩
          cases hmsg
        · rintro (h | h)
          · exact absurd h h1
          · exact absurd h hnreach

/-- Witness for `addEdge_error_iff`: a two-task store with one edge
`B depends_on C`; adding `T depends_on B` to a task `T` with no prior rows. -/
theorem addEdge_error_iff_witness :
    let e1 : DepRow :=
      { parent := "B", dependsOn := "C", depType := DepType.fs, lagDays := 0 }
    let newRow : DepRow :=
      { parent := "T", dependsOn := "B", depType := DepType.fs, lagDays := 0 }
    ((∃ msg, addEdge "T" [e1] [] newRow = .error msg) ↔
        (newRow.dependsOn = "T" ∨ Reaches [e1] newRow.dependsOn "T")) ∧
    (¬ (newRow.dependsOn = "T" ∨ Reaches [e1] newRow.dependsOn "T") →
      addEdge "T" [e1] [] newRow = .ok ([e1] ++ [newRow])) := by
  intro e1 newRow
  exact addEdge_error_iff "T" [e1] [] newRow (by simp)

end Orga

namespace Orga

/-! ## Cascade preview (`preview_cascade` in `orga/orga/api/task.py`)

The preview computes one flat `shift_days` from the root task's date change,
then walks dependents recursively: the SQL fetches *all* dependency rows
pointing at the current task (no dependency-type filter), a shared visited
set skips re-entries, and the recursion depth is bounded (`depth > 100`
returns without error, so depths 0..100 run — 101 levels of fuel). -/

/-- One element of the preview's `affected_tasks` list. -/
structure CascadeEntry where
  taskId : String
  oldValue : Option Date
  newValue : Option Date
  oldEnd : Option Date
  newEnd : Option Date
  daysShift : Int
  depType : DepType
  lagDays : Int
deriving DecidableEq, Repr

/-- The SQL of the walk: all dependency rows whose `depends_on` is `t`,
regardless of type. -/
def dependentRows (db : DB) (t : String) : List DepRow :=
  db.deps.filter (fun r => r.dependsOn == t)

/-- The recursive walk `find_dependents`.  The state carries the shared
visited set and the accumulated `affected` list; `fuel = 0` is the
`depth > 100` early return. -/
def findDependents (db : DB) :
    Nat → String → Int → Finset String × List CascadeEntry →
      Finset String × List CascadeEntry
  | 0, _, _, st => st
  | fuel + 1, tname, shift, st =>
    (dependentRows db tname).foldl (fun st dep =>
      if dep.parent ∈ st.1 then st
      else
        let st1 := (insert dep.parent st.1, st.2)
        match lookupTask db dep.parent with
        | none => st1
        | some t =>
          let entry : CascadeEntry :=
            { taskId := t.name, oldValue := t.startDate,
              newValue := t.startDate.map (fun s => s + shift),
              oldEnd := t.dueDate, newEnd := t.dueDate.map (fun d => d + shift),
              daysShift := shift, depType := dep.depType,
              lagDays := dep.lagDays }
          findDependents db fuel dep.parent shift (st1.1, st1.2 ++ [entry])) st

/-- The shift computation of `preview_cascade`: end difference when an end
change and an old end exist, else start difference when a start change and an
old start exist, else 0. -/
def cascadeShiftDays (task : Task) (newStart newEnd : Option Date) : Int :=
  match newEnd, task.dueDate with
  | some ne, some oe => ne - oe
  | _, _ =>
    match newStart, task.startDate with
    | some ns, some os => ns - os
    | _, _ => 0

/-- Embeds `preview_cascade`, returning the `affected_tasks` list. -/
def previewCascade (db : DB) (taskName : String)
    (newStart newEnd : Option Date) : Except String (List CascadeEntry) :=
  match lookupTask db taskName with
  | none => .error "Task not found"
  | some task =>
    match newStart, newEnd with
    | none, none => .ok []
    | _, _ =>
      let shiftDays := cascadeShiftDays task newStart newEnd
      if shiftDays = 0 then .ok []
      else .ok (findDependents db 101 taskName shiftDays (∅, [])).2

/-- The task ids reported by a preview (empty on error). -/
def affectedIds (r : Except String (List CascadeEntry)) : List String :=
  match r with
  | .ok es => es.map (fun e => e.taskId)
  | .error _ => []

/-- Any per-entry property that holds of every entry the walk can append is
an invariant of `findDependents`. -/
theorem findDependents_entries (db : DB) (shift : Int) (P : CascadeEntry → Prop)
    (hP : ∀ (t : Task) (dep : DepRow),
      P { taskId := t.name, oldValue := t.startDate,
          newValue := t.startDate.map (fun s => s + shift),
          oldEnd := t.dueDate, newEnd := t.dueDate.map (fun d => d + shift),
          daysShift := shift, depType := dep.depType, lagDays := dep.lagDays }) :
    ∀ (fuel : Nat) (tname : String) (st : Finset String × List CascadeEntry),
      (∀ e ∈ st.2, P e) →
      ∀ e ∈ (findDependents db fuel tname shift st).2, P e := by
  intro fuel
  induction fuel with
  | zero => intro tname st hst e he; exact hst e he
  | succ fuel ih =>
      intro tname st hst
      show ∀ e ∈ ((dependentRows db tname).foldl _ st).2, P e
      generalize dependentRows db tname = rows
      induction rows generalizing st with
      | nil => exact hst
      | cons dep rows ihr =>
          intro e he
          rw [List.foldl_cons] at he
          refine ihr _ ?_ e he
          by_cases hvis : dep.parent ∈ st.1
          · simpa [hvis] using hst
          · simp only [hvis, if_false]
            cases hlook : lookupTask db dep.parent with
            | none => simpa [hlook] using hst
            | some t =>
                simp only [hlook]
                refine ih _ _ ?_
                intro e' he'
                rcases List.mem_append.mp he' with h | h
                · exact hst e' h
                · rw [List.mem_singleton.mp h]
                  exact hP t dep

/-- C4: every task reported by the cascade preview is shifted by exactly the
root's flat shift — `new_start = old_start + shift`, `new_end = old_end +
shift`, `days_shift = shift` — never adjusted by the successor's own lag; the
shift is the end difference when an end change and an old end exist, else the
start difference when a start change and an old start exist, else 0; and a
zero shift yields an empty result. -/
theorem previewCascade_flat_shift (db : DB) (taskName : String)
    (newStart newEnd : Option Date) (task : Task)
    (htask : lookupTask db taskName = some task) :
    (cascadeShiftDays task newStart newEnd = 0 →
      previewCascade db taskName newStart newEnd = .ok []) ∧
    (∀ entries, previewCascade db taskName newStart newEnd = .ok entries →
      ∀ e ∈ entries,
        e.daysShift = cascadeShiftDays task newStart newEnd ∧
        e.newValue = e.oldValue.map
          (fun d => d + cascadeShiftDays task newStart newEnd) ∧
        e.newEnd = e.oldEnd.map
          (fun d => d + cascadeShiftDays task newStart newEnd)) := by
  have hinv := findDependents_entries db (cascadeShiftDays task newStart newEnd)
    (fun e => e.daysShift = cascadeShiftDays task newStart newEnd ∧
      e.newValue = e.oldValue.map
        (fun d => d + cascadeShiftDays task newStart newEnd) ∧
      e.newEnd = e.oldEnd.map
        (fun d => d + cascadeShiftDays task newStart newEnd))
    (fun t dep => ⟨rfl, rfl, rfl⟩)
  have hr : previewCascade db taskName newStart newEnd =
      (if cascadeShiftDays task newStart newEnd = 0 then Except.ok []
       else Except.ok (findDependents db 101 taskName
         (cascadeShiftDays task newStart newEnd) (∅, [])).2) := by
    unfold previewCascade
    rw [htask]
    rcases newStart with _ | ns <;> rcases newEnd with _ | ne
    · have h0 : cascadeShiftDays task none none = 0 := rfl
      rw [h0, if_pos rfl]
    · rfl
    · rfl
    · rfl
  rw [hr]
  constructor
  · intro hz
    rw [if_pos hz]
  · intro entries hentries e he
    by_cases hz : cascadeShiftDays task newStart newEnd = 0
    · rw [if_pos hz] at hentries
      injection hentries with h
      subst h
      cases he
    · rw [if_neg hz] at hentries
      injection hentries with h
      subst h
      exact hinv 101 taskName (∅, []) (by simp) e he

end Orga

namespace Orga

/-- Witness for `previewCascade_flat_shift`: root `A` shifted to end day 3
(shift 2) with one FS successor `B` carrying lag 3. -/
theorem previewCascade_flat_shift_witness :
    let tA : Task := { name := "A", startDate := some 0, dueDate := some 1 }
    let tB : Task := { name := "B", startDate := some 10, dueDate := some 11 }
    let r1 : DepRow :=
      { parent := "B", dependsOn := "A", depType := DepType.fs, lagDays := 3 }
    let db : DB := { tasks := [tA, tB], deps := [r1] }
    (cascadeShiftDays tA none (some 3) = 0 →
      previewCascade db "A" none (some 3) = .ok []) ∧
    (∀ entries, previewCascade db "A" none (some 3) = .ok entries →
      ∀ e ∈ entries,
        e.daysShift = cascadeShiftDays tA none (some 3) ∧
        e.newValue = e.oldValue.map
          (fun d => d + cascadeShiftDays tA none (some 3)) ∧
        e.newEnd = e.oldEnd.map
          (fun d => d + cascadeShiftDays tA none (some 3))) := by
  intro tA tB r1 db
  exact previewCascade_flat_shift db "A" none (some 3) tA rfl

/-- The task ids carried by a list of preview entries. -/
def entryIds (l : List CascadeEntry) : List String :=
  l.map (fun e => e.taskId)

/-- Rewrite every dependency row's type (the tasks are untouched). -/
def mapDepTypes (f : DepType → DepType) (db : DB) : DB :=
  { db with deps := db.deps.map (fun r => { r with depType := f r.depType }) }

/-- A found task carries the looked-up name. -/
theorem lookupTask_name {db : DB} {n : String} {t : Task}
    (h : lookupTask db n = some t) : t.name = n := by
  have := List.find?_some h
  simpa using this


/-- The entry built for a found dependent task. -/
def cascadeEntryFor (shift : Int) (dep : DepRow) (t : Task) : CascadeEntry :=
  { taskId := t.name, oldValue := t.startDate,
    newValue := t.startDate.map (fun s => s + shift),
    oldEnd := t.dueDate, newEnd := t.dueDate.map (fun d => d + shift),
    daysShift := shift, depType := dep.depType, lagDays := dep.lagDays }

/-- One loop iteration of `find_dependents`, named for reasoning: skip on the
visited set, mark visited, skip a missing task, else append the entry and
recurse. -/
def cascadeStep (db : DB) (fuel : Nat) (shift : Int)
    (st : Finset String × List CascadeEntry) (dep : DepRow) :
    Finset String × List CascadeEntry :=
  if dep.parent ∈ st.1 then st
  else
    let st1 := (insert dep.parent st.1, st.2)
    match lookupTask db dep.parent with
    | none => st1
    | some t => findDependents db fuel dep.parent shift
        (st1.1, st1.2 ++ [cascadeEntryFor shift dep t])

/-- Unfolding lemma: one level of the walk is the fold of `cascadeStep`. -/
theorem findDependents_succ (db : DB) (fuel : Nat) (tname : String)
    (shift : Int) (st : Finset String × List CascadeEntry) :
    findDependents db (fuel + 1) tname shift st =
      (dependentRows db tname).foldl (cascadeStep db fuel shift) st := rfl

/-- Retyping edges permutes nothing: the dependent rows are the retyped
originals. -/
theorem dependentRows_mapDepTypes (f : DepType → DepType) (db : DB)
    (t : String) :
    dependentRows (mapDepTypes f db) t =
      (dependentRows db t).map (fun r => { r with depType := f r.depType }) := by
  have key : ∀ (l : List DepRow),
      (l.map (fun r => ({ r with depType := f r.depType } : DepRow))).filter
          (fun r => r.dependsOn == t) =
        (l.filter (fun r => r.dependsOn == t)).map
          (fun r => { r with depType := f r.depType }) := by
    intro l
    induction l with
    | nil => rfl
    | cons r rs ih =>
        by_cases h : (r.dependsOn == t) = true
        · simp only [List.map_cons, List.filter_cons, h, if_true, ih]
        · simp only [List.map_cons, List.filter_cons, h,
            Bool.false_eq_true, if_false, ih]
  exact key db.deps

end Orga

namespace Orga

/-- The walk never inspects an edge's type except to copy it into the entry:
visited set and reported ids are invariant under retyping every edge. -/
theorem findDependents_mapTypes_ids (f : DepType → DepType) (db : DB) :
    ∀ (fuel : Nat) (tname : String) (shift : Int)
      (st st' : Finset String × List CascadeEntry),
      st'.1 = st.1 → entryIds st'.2 = entryIds st.2 →
      ((findDependents (mapDepTypes f db) fuel tname shift st').1 =
          (findDependents db fuel tname shift st).1 ∧
        entryIds (findDependents (mapDepTypes f db) fuel tname shift st').2 =
          entryIds (findDependents db fuel tname shift st).2) := by
  intro fuel
  induction fuel with
  | zero => intro tname shift st st' h1 h2; exact ⟨h1, h2⟩
  | succ fuel ih =>
      have hstep : ∀ (dep : DepRow) (st st' : Finset String × List CascadeEntry)
          (shift : Int),
          st'.1 = st.1 → entryIds st'.2 = entryIds st.2 →
          ((cascadeStep (mapDepTypes f db) fuel shift st'
              { dep with depType := f dep.depType }).1 =
            (cascadeStep db fuel shift st dep).1 ∧
          entryIds (cascadeStep (mapDepTypes f db) fuel shift st'
              { dep with depType := f dep.depType }).2 =
            entryIds (cascadeStep db fuel shift st dep).2) := by
        intro dep st st' shift h1 h2
        show ((if dep.parent ∈ st'.1 then st'
          else
            let st1 := (insert dep.parent st'.1, st'.2)
            match lookupTask (mapDepTypes f db) dep.parent with
            | none => st1
            | some t => findDependents (mapDepTypes f db) fuel dep.parent shift
                (st1.1, st1.2 ++ [cascadeEntryFor shift
                  { dep with depType := f dep.depType } t])).1 =
            (cascadeStep db fuel shift st dep).1 ∧ _)
        have hdb : lookupTask (mapDepTypes f db) dep.parent =
            lookupTask db dep.parent := rfl
        unfold cascadeStep
        rw [hdb]
        by_cases hvis : dep.parent ∈ st.1
        · have hvis' : dep.parent ∈ st'.1 := h1 ▸ hvis
          rw [if_pos hvis, if_pos hvis']
          exact ⟨h1, h2⟩
        · have hvis' : dep.parent ∉ st'.1 := h1 ▸ hvis
          rw [if_neg hvis, if_neg hvis']
          cases hlook : lookupTask db dep.parent with
          | none => exact ⟨by rw [h1], h2⟩
          | some t =>
              refine ih dep.parent shift _ _ (by simp [h1]) ?_
              simp only [entryIds] at h2 ⊢
              simp [cascadeEntryFor, h2]
      intro tname shift st st' h1 h2
      rw [findDependents_succ, findDependents_succ, dependentRows_mapDepTypes,
        List.foldl_map]
      generalize dependentRows db tname = rows
      induction rows generalizing st st' with
      | nil => exact ⟨h1, h2⟩
      | cons dep rows ihr =>
          rw [List.foldl_cons, List.foldl_cons]
          obtain ⟨ha, hb⟩ := hstep dep st st' shift h1 h2
          exact ihr _ _ ha hb

end Orga

namespace Orga

/-- The visited set guards re-entrancy: reported ids are pairwise distinct,
covered by the visited set, and the visited set only grows. -/
theorem findDependents_nodup (db : DB) :
    ∀ (fuel : Nat) (tname : String) (shift : Int)
      (st : Finset String × List CascadeEntry),
      (entryIds st.2).Nodup → (∀ i ∈ entryIds st.2, i ∈ st.1) →
      ((entryIds (findDependents db fuel tname shift st).2).Nodup ∧
        (∀ i ∈ entryIds (findDependents db fuel tname shift st).2,
          i ∈ (findDependents db fuel tname shift st).1) ∧
        st.1 ⊆ (findDependents db fuel tname shift st).1) := by
  intro fuel
  induction fuel with
  | zero =>
      intro tname shift st h1 h2
      exact ⟨h1, h2, Finset.Subset.refl _⟩
  | succ fuel ih =>
      have hstep : ∀ (dep : DepRow) (shift : Int)
          (st : Finset String × List CascadeEntry),
          (entryIds st.2).Nodup → (∀ i ∈ entryIds st.2, i ∈ st.1) →
          ((entryIds (cascadeStep db fuel shift st dep).2).Nodup ∧
            (∀ i ∈ entryIds (cascadeStep db fuel shift st dep).2,
              i ∈ (cascadeStep db fuel shift st dep).1) ∧
            st.1 ⊆ (cascadeStep db fuel shift st dep).1) := by
        intro dep shift st h1 h2
        unfold cascadeStep
        by_cases hvis : dep.parent ∈ st.1
        · rw [if_pos hvis]
          exact ⟨h1, h2, Finset.Subset.refl _⟩
        · rw [if_neg hvis]
          cases hlook : lookupTask db dep.parent with
          | none =>
              refine ⟨h1, ?_, Finset.subset_insert _ _⟩
              intro i hi
              exact Finset.mem_insert_of_mem (h2 i hi)
          | some t =>
              have hname : t.name = dep.parent := lookupTask_name hlook
              have hn1 : (entryIds (st.2 ++ [cascadeEntryFor shift dep t])).Nodup := by
                rw [entryIds, List.map_append]
                refine List.Nodup.append h1 (by simp) ?_
                intro i hi hj
                simp only [cascadeEntryFor, List.map_cons, List.map_nil,
                  List.mem_singleton] at hj
                rw [hj, hname] at hi
                exact hvis (h2 _ hi)
              have hn2 : ∀ i ∈ entryIds (st.2 ++ [cascadeEntryFor shift dep t]),
                  i ∈ insert dep.parent st.1 := by
                intro i hi
                rw [entryIds, List.map_append, List.mem_append] at hi
                rcases hi with hi | hi
                · exact Finset.mem_insert_of_mem (h2 i hi)
                · simp only [cascadeEntryFor, List.map_cons, List.map_nil,
                    List.mem_singleton] at hi
                  rw [hi, hname]
                  exact Finset.mem_insert_self _ _
              obtain ⟨ha, hb, hc⟩ := ih dep.parent shift
                (insert dep.parent st.1,
                  st.2 ++ [cascadeEntryFor shift dep t]) hn1 hn2
              exact ⟨ha, hb, (Finset.subset_insert _ _).trans hc⟩
      intro tname shift st h1 h2
      rw [findDependents_succ]
      generalize dependentRows db tname = rows
      induction rows generalizing st with
      | nil => exact ⟨h1, h2, Finset.Subset.refl _⟩
      | cons dep rows ihr =>
          rw [List.foldl_cons]
          obtain ⟨ha, hb, hc⟩ := hstep dep shift st h1 h2
          obtain ⟨hd, he, hf⟩ := ihr _ ha hb
          exact ⟨hd, he, hc.trans hf⟩

/-- C5 (amended): the cascade preview's walk follows successors through
dependency rows of **every** type — the reported task ids are invariant under
rewriting all edge types — and the visited set guards re-entrancy, so no task
id is reported twice.  (The depth bound is the walk's 101 fuel levels —
depths 0 through 100 — and exhausting it truncates the branch inside a total
function, so the call never fails.) -/
theorem previewCascade_walk_spec (f : DepType → DepType) (db : DB)
    (taskName : String) (newStart newEnd : Option Date) :
    affectedIds (previewCascade (mapDepTypes f db) taskName newStart newEnd) =
      affectedIds (previewCascade db taskName newStart newEnd) ∧
    (affectedIds (previewCascade db taskName newStart newEnd)).Nodup := by
  have hlt : ∀ n, lookupTask (mapDepTypes f db) n = lookupTask db n :=
    fun _ => rfl
  unfold previewCascade
  rw [hlt]
  cases hlook : lookupTask db taskName with
  | none => exact ⟨rfl, by simp [affectedIds]⟩
  | some task =>
      have key : ∀ (s e : Option Date),
          affectedIds (if cascadeShiftDays task s e = 0 then
              (Except.ok [] : Except String (List CascadeEntry))
            else Except.ok (findDependents (mapDepTypes f db) 101 taskName
              (cascadeShiftDays task s e) (∅, [])).2) =
            affectedIds (if cascadeShiftDays task s e = 0 then
              (Except.ok [] : Except String (List CascadeEntry))
            else Except.ok (findDependents db 101 taskName
              (cascadeShiftDays task s e) (∅, [])).2) ∧
          (affectedIds (if cascadeShiftDays task s e = 0 then
              (Except.ok [] : Except String (List CascadeEntry))
            else Except.ok (findDependents db 101 taskName
              (cascadeShiftDays task s e) (∅, [])).2)).Nodup := by
        intro s e
        by_cases hz : cascadeShiftDays task s e = 0
        · rw [if_pos hz, if_pos hz]
          exact ⟨rfl, by simp [affectedIds]⟩
        · rw [if_neg hz, if_neg hz]
          obtain ⟨-, h2⟩ := findDependents_mapTypes_ids f db 101 taskName
            (cascadeShiftDays task s e) (∅, []) (∅, []) rfl rfl
          obtain ⟨h3, -, -⟩ := findDependents_nodup db 101 taskName
            (cascadeShiftDays task s e) (∅, []) (by simp [entryIds])
            (by simp [entryIds])
          exact ⟨h2, h3⟩
      rcases newStart with _ | ns <;> rcases newEnd with _ | ne
      · exact ⟨rfl, by simp [affectedIds]⟩
      · exact key none (some ne)
      · exact key (some ns) none
      · exact key (some ns) (some ne)

/-- C5 counterexample to the claim as stated: with the single edge
`B depends_on A` of type Start-to-Start, task `B` — reachable from `A` only
through that SS edge — *is* reported by the preview of a shift of `A`. -/
theorem previewCascade_ss_counterexample :
    let tA : Task := { name := "A", startDate := some 0, dueDate := some 1 }
    let tB : Task := { name := "B", startDate := some 10, dueDate := some 11 }
    let r1 : DepRow :=
      { parent := "B", dependsOn := "A", depType := DepType.ss, lagDays := 0 }
    let db : DB := { tasks := [tA, tB], deps := [r1] }
    affectedIds (previewCascade db "A" none (some 2)) = ["B"] ∧
    (∀ r ∈ db.deps, r.depType = DepType.ss) := by
  constructor
  · rfl
  · intro r hr
    simp only [List.mem_singleton] at hr
    rw [hr]

end Orga

namespace Orga

/-! ## Reschedule dependents (`reschedule_dependents` in
`orga/orga/api/task.py`)

The endpoint receives `old_start_date` / `old_end_date` but never reads them:
it passes the task's *currently stored* dates to `preview_cascade` as the new
dates, which compares them with those same stored dates. -/

/-- `_get_project_dependency_mode`: the project's `dependency_mode`, with
`"Flexible"` for a missing project, missing column or unset field. -/
def getProjectDependencyMode (db : DB) (p : Option String) : String :=
  match p with
  | none => "Flexible"
  | some pname =>
      match db.projects.find? (fun pr => pr.name == pname) with
      | none => "Flexible"
      | some pr => pr.dependencyMode.getD "Flexible"

/-- `frappe.db.set_value("Orga Task", n, field, v)` for one task field:
rewrite the matching row(s), leaving every other row unchanged. -/
def setTaskField (db : DB) (n : String) (f : Task → Task) : DB :=
  { db with tasks := db.tasks.map (fun t => if t.name == n then f t else t) }

/-- The per-change writes of the strict/apply paths: write `start_date` when
the change carries a new start, then `due_date` when it carries a new end. -/
def applyChangeWrite (db : DB) (c : CascadeEntry) : DB :=
  let db1 := match c.newValue with
    | some v => setTaskField db c.taskId (fun t => { t with startDate := some v })
    | none => db
  match c.newEnd with
  | some v => setTaskField db1 c.taskId (fun t => { t with dueDate := some v })
  | none => db1

/-- The task's stored child rows, as `frappe.get_doc` loads them. -/
def docDepRows (db : DB) (n : String) : List DepRow :=
  db.deps.filter (fun r => r.parent == n)

/-- The reply of `reschedule_dependents`. -/
structure RescheduleResult where
  success : Bool
  mode : String
  updatedTasks : List String
  cascadePreview : List CascadeEntry
deriving DecidableEq, Repr

/-- Embeds `reschedule_dependents` (the write batch of the Strict branch is
modelled as in `apply_cascade` but without a failure oracle; C6's theorem
covers transactional failure, and here the batch is proved empty).  The
result pairs the final database with the reply. -/
def rescheduleDependents (db : DB) (taskName : String)
    (oldStart oldEnd : Option Date) :
    Except String (DB × RescheduleResult) :=
  match lookupTask db taskName with
  | none => .error "Task not found"
  | some task =>
    let mode := getProjectDependencyMode db task.project
    if mode = "Off" then
      .ok (db, { success := true, mode := "Off", updatedTasks := [],
                 cascadePreview := [] })
    else
      match previewCascade db taskName task.startDate task.dueDate with
      | .error e => .error e
      | .ok affected =>
        if affected = [] then
          .ok (db, { success := true, mode := mode, updatedTasks := [],
                     cascadePreview := [] })
        else if mode = "Flexible" then
          .ok (db, { success := true, mode := "Flexible", updatedTasks := [],
                     cascadePreview := affected })
        else
          let pair := affected.foldl
            (fun (acc : DB × List String) c =>
              (applyChangeWrite acc.1 c, acc.2 ++ [c.taskId])) (db, [])
          let db2 := pair.2.foldl (fun dbAcc tid =>
            match lookupTask dbAcc tid with
            | none => dbAcc
            | some t => setTaskField dbAcc tid (fun u =>
                { u with isBlocked :=
                    updateBlockedStatus dbAcc t (docDepRows dbAcc tid) }))
            pair.1
          .ok (db2, { success := true, mode := "Strict",
                      updatedTasks := pair.2, cascadePreview := [] })

/-- A task's own stored dates always produce a zero shift. -/
theorem cascadeShiftDays_self (task : Task) :
    cascadeShiftDays task task.startDate task.dueDate = 0 := by
  unfold cascadeShiftDays
  rcases task.startDate with _ | s <;> rcases task.dueDate with _ | e <;> simp

/-- Previewing a task against its own stored dates reports nothing. -/
theorem previewCascade_self_empty (db : DB) (taskName : String) (task : Task)
    (htask : lookupTask db taskName = some task) :
    previewCascade db taskName task.startDate task.dueDate = .ok [] := by
  unfold previewCascade
  rw [htask]
  rcases hs : task.startDate with _ | s <;> rcases he : task.dueDate with _ | e
  · rfl
  · have h0 := cascadeShiftDays_self task
    rw [hs, he] at h0
    simp [h0]
  · have h0 := cascadeShiftDays_self task
    rw [hs, he] at h0
    simp [h0]
  · have h0 := cascadeShiftDays_self task
    rw [hs, he] at h0
    simp [h0]

/-- C7: `reschedule_dependents` ignores its `old_start_date` /
`old_end_date` arguments, and because it hands the task's stored dates to the
preview as the new dates the computed shift is always zero: the database is
returned unchanged and the reply's change-set and updated-tasks list are
always empty. -/
theorem rescheduleDependents_noop (db : DB) (taskName : String)
    (oS oE oS' oE' : Option Date) (task : Task)
    (htask : lookupTask db taskName = some task) :
    rescheduleDependents db taskName oS oE =
      rescheduleDependents db taskName oS' oE' ∧
    ∃ r, rescheduleDependents db taskName oS oE = .ok (db, r) ∧
      r.updatedTasks = [] ∧ r.cascadePreview = [] := by
  refine ⟨rfl, ?_⟩
  simp only [rescheduleDependents, htask,
    previewCascade_self_empty db taskName task htask]
  by_cases hoff : getProjectDependencyMode db task.project = "Off"
  · rw [if_pos hoff]
    exact ⟨_, rfl, rfl, rfl⟩
  · rw [if_neg hoff]
    exact ⟨_, by rw [if_pos trivial], rfl, rfl⟩

/-- Witness for `rescheduleDependents_noop`: a two-task chain whose root is
rescheduled with arbitrary stale old dates. -/
theorem rescheduleDependents_noop_witness :
    let tA : Task := { name := "A", startDate := some 0, dueDate := some 4 }
    let tB : Task := { name := "B", startDate := some 6, dueDate := some 8 }
    let r1 : DepRow :=
      { parent := "B", dependsOn := "A", depType := DepType.fs, lagDays := 0 }
    let db : DB := { tasks := [tA, tB], deps := [r1] }
    rescheduleDependents db "A" (some (-3)) (some 1) =
      rescheduleDependents db "A" none none ∧
    ∃ r, rescheduleDependents db "A" (some (-3)) (some 1) = .ok (db, r) ∧
      r.updatedTasks = [] ∧ r.cascadePreview = [] := by
  intro tA tB r1 db
  exact rescheduleDependents_noop db "A" (some (-3)) (some 1) none none tA rfl

end Orga

namespace Orga

/-! ## Apply cascade (`apply_cascade` in `orga/orga/api/task.py`)

The endpoint writes the root task's dates, then every listed successor's
dates, inside one try-block; `frappe.db.commit()` publishes the batch, any
exception triggers `frappe.db.rollback()` — discarding every write of the
batch — and re-throws.  The embedding models the transaction with an explicit
failure oracle on write operations: a failing write aborts, leaving the
committed database untouched. -/

/-- Which date column a write touches. -/
inductive DateField
  | start
  | due
deriving DecidableEq, Repr

/-- One `frappe.db.set_value` date write of the batch. -/
structure WriteOp where
  task : String
  field : DateField
  value : Date
deriving DecidableEq, Repr

/-- The write list of `apply_cascade`: root start (when given), root end
(when given), then per change its new start (when present) and new end
(when present). -/
def cascadeWriteOps (taskName : String) (newStart newEnd : Option Date)
    (changes : List CascadeEntry) : List WriteOp :=
  (match newStart with
    | some v => [{ task := taskName, field := DateField.start, value := v }]
    | none => []) ++
  (match newEnd with
    | some v => [{ task := taskName, field := DateField.due, value := v }]
    | none => []) ++
  changes.flatMap (fun c =>
    (match c.newValue with
      | some v => [{ task := c.taskId, field := DateField.start, value := v }]
      | none => []) ++
    (match c.newEnd with
      | some v => [{ task := c.taskId, field := DateField.due, value := v }]
      | none => []))

/-- Apply one write to the database. -/
def applyWrite (db : DB) (w : WriteOp) : DB :=
  match w.field with
  | DateField.start =>
      setTaskField db w.task (fun t => { t with startDate := some w.value })
  | DateField.due =>
      setTaskField db w.task (fun t => { t with dueDate := some w.value })

/-- Run the writes of the transaction in order; the first failing write
aborts the batch. -/
def execWrites (fails : WriteOp → Bool) : DB → List WriteOp → Except Unit DB
  | db, [] => .ok db
  | db, w :: ws =>
      if fails w then .error () else execWrites fails (applyWrite db w) ws

/-- The changes list used by `apply_cascade`: the given one, or the preview's
`affected_tasks` when omitted. -/
def cascadeChangesList (db : DB) (taskName : String)
    (newStart newEnd : Option Date) (changes : Option (List CascadeEntry)) :
    List CascadeEntry :=
  match changes with
  | some cs => cs
  | none =>
      match previewCascade db taskName newStart newEnd with
      | .ok es => es
      | .error _ => []

/-- Embeds `apply_cascade`: the pair is the database after the call (the
committed state) together with the reply — the updated-task list on success,
the surfaced error on failure (after rollback). -/
def applyCascade (fails : WriteOp → Bool) (db : DB) (taskName : String)
    (newStart newEnd : Option Date) (changes : Option (List CascadeEntry)) :
    DB × Except String (List String) :=
  match lookupTask db taskName with
  | none => (db, .error "Task not found")
  | some _ =>
    let cs := cascadeChangesList db taskName newStart newEnd changes
    let ops := cascadeWriteOps taskName newStart newEnd cs
    match execWrites fails db ops with
    | .ok db2 => (db2, .ok (taskName :: cs.map (fun c => c.taskId)))
    | .error _ => (db, .error "Failed to apply cascade changes")

/-- `execWrites` either commits the whole fold or fails. -/
theorem execWrites_spec (fails : WriteOp → Bool) :
    ∀ (ops : List WriteOp) (db : DB),
      ((∃ w ∈ ops, fails w = true) → execWrites fails db ops = .error ()) ∧
      ((∀ w ∈ ops, fails w = false) →
        execWrites fails db ops = .ok (ops.foldl applyWrite db)) := by
  intro ops
  induction ops with
  | nil =>
      intro db
      exact ⟨fun ⟨w, hw, _⟩ => absurd hw (List.not_mem_nil w), fun _ => rfl⟩
  | cons w ws ih =>
      intro db
      constructor
      · rintro ⟨w', hw', hfail⟩
        rcases List.mem_cons.mp hw' with h | h
        · subst h
          unfold execWrites
          rw [if_pos hfail]
        · unfold execWrites
          by_cases hw : fails w = true
          · rw [if_pos hw]
          · rw [if_neg hw]
            exact (ih (applyWrite db w)).1 ⟨w', h, hfail⟩
      · intro hall
        unfold execWrites
        rw [if_neg (by rw [hall w (List.mem_cons_self _ _)]; simp)]
        rw [List.foldl_cons]
        exact (ih (applyWrite db w)).2
          (fun w' hw' => hall w' (List.mem_cons_of_mem _ hw'))

end Orga

namespace Orga

/-- `find?` commutes with a map that preserves the predicate. -/
theorem find?_map_comm {α : Type} (g : α → α) (p : α → Bool)
    (hp : ∀ a, p (g a) = p a) :
    ∀ l : List α, (l.map g).find? p = (l.find? p).map g := by
  intro l
  induction l with
  | nil => rfl
  | cons a l ih =>
      rw [List.map_cons]
      by_cases h : p a = true
      · rw [List.find?_cons_of_pos _ (by rw [hp]; exact h),
          List.find?_cons_of_pos _ h, Option.map_some']
      · rw [List.find?_cons_of_neg _ (by rw [hp]; exact h),
          List.find?_cons_of_neg _ h]
        exact ih

/-- Looking up after a single-task field write: the write rewrites exactly the
looked-up row. -/
theorem lookupTask_setTaskField (db : DB) (n : String) (f : Task → Task)
    (m : String) (hf : ∀ t, (f t).name = t.name) :
    lookupTask (setTaskField db n f) m =
      (lookupTask db m).map (fun t => if t.name == n then f t else t) := by
  unfold lookupTask setTaskField
  exact find?_map_comm _ _ (fun t => by
    by_cases h : (t.name == n) = true
    · simp only [h, if_true, hf]
    · simp only [h, Bool.false_eq_true, if_false]) db.tasks

/-- A write to another task does not change a lookup. -/
theorem lookupTask_setTaskField_ne (db : DB) (n : String) (f : Task → Task)
    (m : String) (hf : ∀ t, (f t).name = t.name) (hne : m ≠ n) :
    lookupTask (setTaskField db n f) m = lookupTask db m := by
  rw [lookupTask_setTaskField db n f m hf]
  cases hl : lookupTask db m with
  | none => rfl
  | some t =>
      have hname : t.name = m := lookupTask_name hl
      rw [Option.map_some']
      have : (t.name == n) = false := by
        rw [hname]
        exact beq_eq_false_iff_ne.mpr hne
      rw [this]
      simp

/-- A batch of date writes leaves every unwritten task's row unchanged. -/
theorem foldl_applyWrite_frame :
    ∀ (ops : List WriteOp) (db : DB) (m : String),
      (∀ w ∈ ops, w.task ≠ m) →
      lookupTask (ops.foldl applyWrite db) m = lookupTask db m := by
  intro ops
  induction ops with
  | nil => intro db m _; rfl
  | cons w ws ih =>
      intro db m hne
      rw [List.foldl_cons]
      rw [ih (applyWrite db w) m (fun w' hw' => hne w' (List.mem_cons_of_mem _ hw'))]
      have hwm : m ≠ w.task := (hne w (List.mem_cons_self _ _)).symm
      cases hf : w.field with
      | start =>
          show lookupTask (applyWrite db w) m = lookupTask db m
          unfold applyWrite
          rw [hf]
          exact lookupTask_setTaskField_ne db w.task _ m (fun t => rfl) hwm
      | due =>
          show lookupTask (applyWrite db w) m = lookupTask db m
          unfold applyWrite
          rw [hf]
          exact lookupTask_setTaskField_ne db w.task _ m (fun t => rfl) hwm

/-- C6: `apply_cascade` is one atomic batch — root dates first, then every
listed successor's dates.  If any write of the batch fails, the committed
database is returned unchanged (full rollback) and the error is surfaced; if
no write fails, the batch commits as the in-order fold of all writes, the
updated-task list is returned, and tasks outside the batch are untouched. -/
theorem applyCascade_atomic (fails : WriteOp → Bool) (db : DB)
    (taskName : String) (newStart newEnd : Option Date)
    (changes : Option (List CascadeEntry)) (task : Task)
    (htask : lookupTask db taskName = some task) :
    ((∃ w ∈ cascadeWriteOps taskName newStart newEnd
        (cascadeChangesList db taskName newStart newEnd changes),
        fails w = true) →
      applyCascade fails db taskName newStart newEnd changes =
        (db, .error "Failed to apply cascade changes")) ∧
    ((∀ w ∈ cascadeWriteOps taskName newStart newEnd
        (cascadeChangesList db taskName newStart newEnd changes),
        fails w = false) →
      applyCascade fails db taskName newStart newEnd changes =
        ((cascadeWriteOps taskName newStart newEnd
            (cascadeChangesList db taskName newStart newEnd changes)).foldl
              applyWrite db,
          .ok (taskName ::
            (cascadeChangesList db taskName newStart newEnd changes).map
              (fun c => c.taskId))) ∧
      ∀ m, (∀ w ∈ cascadeWriteOps taskName newStart newEnd
          (cascadeChangesList db taskName newStart newEnd changes),
          w.task ≠ m) →
        lookupTask ((cascadeWriteOps taskName newStart newEnd
            (cascadeChangesList db taskName newStart newEnd changes)).foldl
              applyWrite db) m = lookupTask db m) := by
  constructor
  · intro hfail
    have hexec := (execWrites_spec fails
      (cascadeWriteOps taskName newStart newEnd
        (cascadeChangesList db taskName newStart newEnd changes)) db).1 hfail
    simp only [applyCascade, htask, hexec]
  · intro hok
    have hexec := (execWrites_spec fails
      (cascadeWriteOps taskName newStart newEnd
        (cascadeChangesList db taskName newStart newEnd changes)) db).2 hok
    refine ⟨by simp only [applyCascade, htask, hexec], ?_⟩
    intro m hm
    exact foldl_applyWrite_frame _ db m hm

/-- Witness for `applyCascade_atomic`: a root `A` and one listed successor
change for `B`, with an all-succeeding write oracle. -/
theorem applyCascade_atomic_witness :
    let tA : Task := { name := "A", startDate := some 0, dueDate := some 4 }
    let tB : Task := { name := "B", startDate := some 6, dueDate := some 8 }
    let db : DB := { tasks := [tA, tB], deps := [] }
    let ch : CascadeEntry :=
      { taskId := "B", oldValue := some 6, newValue := some 8,
        oldEnd := some 8, newEnd := some 10, daysShift := 2,
        depType := DepType.fs, lagDays := 0 }
    let fails : WriteOp → Bool := fun _ => false
    ((∃ w ∈ cascadeWriteOps "A" (some 2) (some 6)
        (cascadeChangesList db "A" (some 2) (some 6) (some [ch])),
        fails w = true) →
      applyCascade fails db "A" (some 2) (some 6) (some [ch]) =
        (db, .error "Failed to apply cascade changes")) ∧
    ((∀ w ∈ cascadeWriteOps "A" (some 2) (some 6)
        (cascadeChangesList db "A" (some 2) (some 6) (some [ch])),
        fails w = false) →
      applyCascade fails db "A" (some 2) (some 6) (some [ch]) =
        ((cascadeWriteOps "A" (some 2) (some 6)
            (cascadeChangesList db "A" (some 2) (some 6) (some [ch]))).foldl
              applyWrite db,
          .ok ("A" ::
            (cascadeChangesList db "A" (some 2) (some 6) (some [ch])).map
              (fun c => c.taskId))) ∧
      ∀ m, (∀ w ∈ cascadeWriteOps "A" (some 2) (some 6)
          (cascadeChangesList db "A" (some 2) (some 6) (some [ch])),
          w.task ≠ m) →
        lookupTask ((cascadeWriteOps "A" (some 2) (some 6)
            (cascadeChangesList db "A" (some 2) (some 6) (some [ch]))).foldl
              applyWrite db) m = lookupTask db m) := by
  intro tA tB db ch fails
  exact applyCascade_atomic fails db "A" (some 2) (some 6) (some [ch]) tA rfl

end Orga

namespace Orga

/-! ## Auto-advance on completion (`_advance_successors_on_completion` in
`orga/orga/api/task.py`)

When a task completes (and the project's dependency mode is not Off), each
Finish-to-Start successor row is visited: the successor is skipped when its
own status is terminal, when any of its FS predecessors is not Completed,
when it has no recorded start date, or when the new start equals the current
one; otherwise its start snaps to `anchor + lag` with
`anchor = max(today, completed_due + 1)`, and — when a due date exists — the
due date shifts by the same delta, preserving the duration. -/

/-- `anchor = max(today, completed task's due_date + 1)`; just `today` when
the completed task has no due date. -/
def advanceAnchor (today : Date) (db : DB) (taskName : String) : Date :=
  match dueOf db taskName with
  | some d => max today (d + 1)
  | none => today

/-- The Finish-to-Start successor rows of the completed task. -/
def advanceSuccRows (db : DB) (taskName : String) : List DepRow :=
  db.deps.filter (fun r => r.dependsOn == taskName && r.depType == DepType.fs)

/-- The Finish-to-Start predecessor rows of a successor. -/
def advancePredRows (db : DB) (n : String) : List DepRow :=
  db.deps.filter (fun r => r.parent == n && r.depType == DepType.fs)

/-- One successor's visit: the body of the loop in
`_advance_successors_on_completion`. -/
def advanceOne (anchor : Date) (db : DB) (succ : DepRow) : DB :=
  match lookupTask db succ.parent with
  | none => db
  | some t =>
    if t.status = Status.completed ∨ t.status = Status.cancelled then db
    else if (advancePredRows db succ.parent).all
        (fun p => statusOf db p.dependsOn == some Status.completed) then
      match t.startDate with
      | none => db
      | some s =>
        if s = anchor + succ.lagDays then db
        else
          setTaskField
            (match t.dueDate with
              | some d => setTaskField db succ.parent
                  (fun u => { u with
                    dueDate := some (anchor + succ.lagDays + (d - s)) })
              | none => db)
            succ.parent
            (fun u => { u with startDate := some (anchor + succ.lagDays) })
    else db

/-- Embeds `_advance_successors_on_completion`. -/
def advanceSuccessorsOnCompletion (today : Date) (db : DB)
    (taskName : String) : DB :=
  let anchor := advanceAnchor today db taskName
  (advanceSuccRows db taskName).foldl (fun db succ => advanceOne anchor db succ) db

/-- The successor's final row as a pure function of the pre-state: the
claim's case analysis. -/
def advanceOutcome (anchor : Date) (db : DB) (succ : DepRow) (t : Task) :
    Task :=
  if t.status = Status.completed ∨ t.status = Status.cancelled then t
  else if (advancePredRows db succ.parent).all
      (fun p => statusOf db p.dependsOn == some Status.completed) then
    match t.startDate with
    | none => t
    | some s =>
      if s = anchor + succ.lagDays then t
      else
        { t with startDate := some (anchor + succ.lagDays),
                 dueDate := match t.dueDate with
                   | some d => some (anchor + succ.lagDays + (d - s))
                   | none => t.dueDate }
  else t

/-- C8 counterexample to the claim as stated: completing `A` (due day 10, with
`today = 5`) should — per the claim — advance its open FS successor `B`
(lag 1, no other predecessors, all of them Completed) to start
`max(5, 11) + 1 = 12`;  but `B` has no recorded start date and the code skips
it, leaving the start unset rather than `12`. -/
theorem advanceSuccessors_counterexample :
    let tA : Task := { name := "A", status := Status.completed,
                       dueDate := some 10 }
    let tB : Task := { name := "B", status := Status.opn }
    let r1 : DepRow :=
      { parent := "B", dependsOn := "A", depType := DepType.fs, lagDays := 1 }
    let db : DB := { tasks := [tA, tB], deps := [r1] }
    startOf (advanceSuccessorsOnCompletion 5 db "A") "B" = none ∧
    statusOf db "B" = some Status.opn ∧
    (∀ p ∈ advancePredRows db "B",
      statusOf db p.dependsOn = some Status.completed) ∧
    advanceAnchor 5 db "A" + 1 = 12 ∧
    (none : Option Date) ≠ some (12 : Date) := by
  refine ⟨rfl, rfl, ?_, rfl, by decide⟩
  decide

end Orga

namespace Orga

/-- A write that keeps names and statuses keeps every task's status. -/
theorem statusOf_setTaskField (db : DB) (n : String) (f : Task → Task)
    (m : String) (hf : ∀ t, (f t).name = t.name)
    (hs : ∀ t, (f t).status = t.status) :
    statusOf (setTaskField db n f) m = statusOf db m := by
  unfold statusOf
  rw [lookupTask_setTaskField db n f m hf]
  cases hl : lookupTask db m with
  | none => rfl
  | some t =>
      rw [Option.map_some', Option.map_some', Option.map_some']
      by_cases h : (t.name == n) = true
      · rw [if_pos h, hs]
      · rw [if_neg h]

/-- `advanceOne` only rewrites the visited successor's date fields: the
dependency rows, every task's status, and every other task's row are
untouched, and the visited successor lands on `advanceOutcome` of the
pre-loop state. -/
theorem advanceOne_spec (anchor : Date) (db0 dbc : DB) (succ : DepRow)
    (hdeps : dbc.deps = db0.deps)
    (hstat : ∀ m, statusOf dbc m = statusOf db0 m) :
    (advanceOne anchor dbc succ).deps = dbc.deps ∧
    (∀ m, statusOf (advanceOne anchor dbc succ) m = statusOf dbc m) ∧
    (∀ m, m ≠ succ.parent →
      lookupTask (advanceOne anchor dbc succ) m = lookupTask dbc m) ∧
    (∀ t, lookupTask dbc succ.parent = some t →
      lookupTask (advanceOne anchor dbc succ) succ.parent =
        some (advanceOutcome anchor db0 succ t)) := by
  have hpred : advancePredRows dbc succ.parent =
      advancePredRows db0 succ.parent := by
    unfold advancePredRows
    rw [hdeps]
  have hcond : ((advancePredRows dbc succ.parent).all
        (fun p => statusOf dbc p.dependsOn == some Status.completed)) =
      ((advancePredRows db0 succ.parent).all
        (fun p => statusOf db0 p.dependsOn == some Status.completed)) := by
    rw [hpred]
    simp only [hstat]
  cases hl : lookupTask dbc succ.parent with
  | none =>
      have hred : advanceOne anchor dbc succ = dbc := by
        unfold advanceOne
        rw [hl]
      refine ⟨by rw [hred], fun m => by rw [hred], fun m _ => by rw [hred], ?_⟩
      intro t ht
      exact Option.noConfusion ht
  | some t =>
      have hname : t.name = succ.parent := lookupTask_name hl
      have hbeq : (t.name == succ.parent) = true := beq_iff_eq.mpr hname
      by_cases h1 : t.status = Status.completed ∨ t.status = Status.cancelled
      · have hred : advanceOne anchor dbc succ = dbc := by
          unfold advanceOne
          rw [hl]
          simp only [if_pos h1]
        have hout : advanceOutcome anchor db0 succ t = t := by
          unfold advanceOutcome
          rw [if_pos h1]
        refine ⟨by rw [hred], fun m => by rw [hred], fun m _ => by rw [hred], ?_⟩
        intro t' ht'
        injection ht' with ht'
        subst ht'
        rw [hred, hout]
        exact hl
      · by_cases h2 : ((advancePredRows dbc succ.parent).all
            (fun p => statusOf dbc p.dependsOn == some Status.completed)) = true
        · cases hs : t.startDate with
          | none =>
              have hred : advanceOne anchor dbc succ = dbc := by
                unfold advanceOne
                rw [hl]
                simp only [if_neg h1, if_pos h2, hs]
              have hout : advanceOutcome anchor db0 succ t = t := by
                unfold advanceOutcome
                rw [if_neg h1, if_pos (hcond ▸ h2)]
                simp only [hs]
              refine ⟨by rw [hred], fun m => by rw [hred],
                fun m _ => by rw [hred], ?_⟩
              intro t' ht'
              injection ht' with ht'
              subst ht'
              rw [hred, hout]
              exact hl
          | some s =>
              by_cases h3 : s = anchor + succ.lagDays
              · have hred : advanceOne anchor dbc succ = dbc := by
                  unfold advanceOne
                  rw [hl]
                  simp only [if_neg h1, if_pos h2, hs, if_pos h3]
                have hout : advanceOutcome anchor db0 succ t = t := by
                  unfold advanceOutcome
                  rw [if_neg h1, if_pos (hcond ▸ h2)]
                  simp only [hs]
                  rw [if_pos h3]
                refine ⟨by rw [hred], fun m => by rw [hred],
                  fun m _ => by rw [hred], ?_⟩
                intro t' ht'
                injection ht' with ht'
                subst ht'
                rw [hred, hout]
                exact hl
              · cases hd : t.dueDate with
                | none =>
                    have hred : advanceOne anchor dbc succ =
                        setTaskField dbc succ.parent
                          (fun u =>
                            { u with startDate := some (anchor + succ.lagDays) }) := by
                      unfold advanceOne
                      rw [hl]
                      simp only [if_neg h1, if_pos h2, hs, if_neg h3, hd]
                    have hout : advanceOutcome anchor db0 succ t =
                        { t with startDate := some (anchor + succ.lagDays) } := by
                      unfold advanceOutcome
                      rw [if_neg h1, if_pos (hcond ▸ h2)]
                      simp only [hs]
                      rw [if_neg h3]
                      simp only [hd]
                    refine ⟨by rw [hred]; rfl, fun m => by
                        rw [hred]
                        exact statusOf_setTaskField dbc succ.parent _ m
                          (fun u => rfl) (fun u => rfl),
                      fun m hm => by
                        rw [hred]
                        exact lookupTask_setTaskField_ne dbc succ.parent _ m
                          (fun u => rfl) hm, ?_⟩
                    intro t' ht'
                    injection ht' with ht'
                    subst ht'
                    rw [hred, hout,
                      lookupTask_setTaskField dbc succ.parent
                        (fun u =>
                          { u with startDate := some (anchor + succ.lagDays) })
                        succ.parent (fun u => rfl),
                      hl, Option.map_some', if_pos hbeq]
                | some d =>
                    have hred : advanceOne anchor dbc succ =
                        setTaskField
                          (setTaskField dbc succ.parent
                            (fun u => { u with
                              dueDate := some (anchor + succ.lagDays + (d - s)) }))
                          succ.parent
                          (fun u =>
                            { u with startDate := some (anchor + succ.lagDays) }) := by
                      unfold advanceOne
                      rw [hl]
                      simp only [if_neg h1, if_pos h2, hs, if_neg h3, hd]
                    have hout : advanceOutcome anchor db0 succ t =
                        { t with
                          startDate := some (anchor + succ.lagDays),
                          dueDate := some (anchor + succ.lagDays + (d - s)) } := by
                      unfold advanceOutcome
                      rw [if_neg h1, if_pos (hcond ▸ h2)]
                      simp only [hs]
                      rw [if_neg h3]
                      simp only [hd]
                    refine ⟨by rw [hred]; rfl, fun m => by
                        rw [hred]
                        rw [statusOf_setTaskField _ succ.parent
                          (fun u =>
                            { u with startDate := some (anchor + succ.lagDays) })
                          m (fun u => rfl) (fun u => rfl)]
                        exact statusOf_setTaskField dbc succ.parent _ m
                          (fun u => rfl) (fun u => rfl),
                      fun m hm => by
                        rw [hred]
                        rw [lookupTask_setTaskField_ne _ succ.parent
                          (fun u =>
                            { u with startDate := some (anchor + succ.lagDays) })
                          m (fun u => rfl) hm]
                        exact lookupTask_setTaskField_ne dbc succ.parent _ m
                          (fun u => rfl) hm, ?_⟩
                    intro t' ht'
                    injection ht' with ht'
                    subst ht'
                    rw [hred, hout,
                      lookupTask_setTaskField _ succ.parent
                        (fun u =>
                          { u with startDate := some (anchor + succ.lagDays) })
                        succ.parent (fun u => rfl),
                      lookupTask_setTaskField dbc succ.parent
                        (fun u => { u with
                          dueDate := some (anchor + succ.lagDays + (d - s)) })
                        succ.parent (fun u => rfl),
                      hl, Option.map_some', if_pos hbeq,
                      Option.map_some', if_pos hbeq]
        · have hred : advanceOne anchor dbc succ = dbc := by
            unfold advanceOne
            rw [hl]
            simp only [if_neg h1, if_neg h2]
          have hout : advanceOutcome anchor db0 succ t = t := by
            unfold advanceOutcome
            rw [if_neg h1, if_neg (by rw [← hcond]; exact h2)]
          refine ⟨by rw [hred], fun m => by rw [hred],
            fun m _ => by rw [hred], ?_⟩
          intro t' ht'
          injection ht' with ht'
          subst ht'
          rw [hred, hout]
          exact hl

end Orga

namespace Orga

/-- The successor loop: with pairwise-distinct successor parents, each visited
successor lands on its `advanceOutcome` of the pre-loop state and everything
else is untouched. -/
theorem advance_fold_spec (anchor : Date) (db0 : DB) :
    ∀ (rows : List DepRow) (dbc : DB),
      dbc.deps = db0.deps →
      (∀ m, statusOf dbc m = statusOf db0 m) →
      (∀ r ∈ rows, lookupTask dbc r.parent = lookupTask db0 r.parent) →
      (rows.map (fun r => r.parent)).Nodup →
      ((rows.foldl (fun db succ => advanceOne anchor db succ) dbc).deps =
          db0.deps ∧
        (∀ m, statusOf
          (rows.foldl (fun db succ => advanceOne anchor db succ) dbc) m =
            statusOf db0 m) ∧
        (∀ m, (∀ r ∈ rows, r.parent ≠ m) →
          lookupTask
            (rows.foldl (fun db succ => advanceOne anchor db succ) dbc) m =
              lookupTask dbc m) ∧
        (∀ r ∈ rows, ∀ t, lookupTask db0 r.parent = some t →
          lookupTask
            (rows.foldl (fun db succ => advanceOne anchor db succ) dbc)
              r.parent = some (advanceOutcome anchor db0 r t))) := by
  intro rows
  induction rows with
  | nil =>
      intro dbc hdeps hstat _ _
      exact ⟨hdeps, hstat, fun m _ => rfl, by simp⟩
  | cons succ rows ih =>
      intro dbc hdeps hstat hrows hnd
      obtain ⟨hd1, hs1, hfr1, hout1⟩ :=
        advanceOne_spec anchor db0 dbc succ hdeps hstat
      have hnd' := hnd
      rw [List.map_cons, List.nodup_cons] at hnd'
      obtain ⟨hhead, htail⟩ := hnd'
      have hne : ∀ r ∈ rows, r.parent ≠ succ.parent := by
        intro r hr heq
        exact hhead (heq ▸ List.mem_map_of_mem (fun r => r.parent) hr)
      have hdeps1 : (advanceOne anchor dbc succ).deps = db0.deps :=
        hd1.trans hdeps
      have hstat1 : ∀ m, statusOf (advanceOne anchor dbc succ) m =
          statusOf db0 m := fun m => (hs1 m).trans (hstat m)
      have hrows1 : ∀ r ∈ rows,
          lookupTask (advanceOne anchor dbc succ) r.parent =
            lookupTask db0 r.parent := by
        intro r hr
        rw [hfr1 r.parent (hne r hr)]
        exact hrows r (List.mem_cons_of_mem _ hr)
      obtain ⟨ha, hb, hc, hd⟩ := ih (advanceOne anchor dbc succ)
        hdeps1 hstat1 hrows1 htail
      rw [List.foldl_cons]
      refine ⟨ha, hb, ?_, ?_⟩
      · intro m hm
        rw [hc m (fun r hr => hm r (List.mem_cons_of_mem _ hr))]
        exact hfr1 m (hm succ (List.mem_cons_self _ _)).symm ▸ rfl
      · intro r hr t ht
        rcases List.mem_cons.mp hr with h | h
        · subst h
          rw [hc r.parent hne]
          have hlc : lookupTask dbc r.parent = some t := by
            rw [hrows r (List.mem_cons_self _ _)]
            exact ht
          exact hout1 t hlc
        · exact hd r h t ht

end Orga

namespace Orga

/-- C8 (amended): when a task completes, each FS successor row with a
pairwise-distinct parent is advanced to `new_start = max(today, completed
due + 1) + lag`, with the due date (when present) shifted by the same delta
(duration preserved), and both dates persisted — skipping successors whose
own status is terminal, successors with a non-Completed FS predecessor,
successors with *no recorded start date*, and successors whose start is
unchanged; dependency rows and all other tasks are untouched. -/
theorem advanceSuccessors_spec (today : Date) (db : DB) (taskName : String)
    (hpar : ((advanceSuccRows db taskName).map (fun r => r.parent)).Nodup) :
    (advanceSuccessorsOnCompletion today db taskName).deps = db.deps ∧
    (∀ m, (∀ r ∈ advanceSuccRows db taskName, r.parent ≠ m) →
      lookupTask (advanceSuccessorsOnCompletion today db taskName) m =
        lookupTask db m) ∧
    (∀ r ∈ advanceSuccRows db taskName, ∀ t, lookupTask db r.parent = some t →
      lookupTask (advanceSuccessorsOnCompletion today db taskName) r.parent =
        some (advanceOutcome (advanceAnchor today db taskName) db r t)) := by
  have hrw : advanceSuccessorsOnCompletion today db taskName =
      (advanceSuccRows db taskName).foldl
        (fun db2 succ => advanceOne (advanceAnchor today db taskName) db2 succ)
        db := rfl
  obtain ⟨-, -, hc, hd⟩ := advance_fold_spec (advanceAnchor today db taskName)
    db (advanceSuccRows db taskName) db rfl (fun m => rfl) (fun r _ => rfl) hpar
  obtain ⟨ha, -, -, -⟩ := advance_fold_spec (advanceAnchor today db taskName)
    db (advanceSuccRows db taskName) db rfl (fun m => rfl) (fun r _ => rfl) hpar
  rw [hrw]
  exact ⟨ha, hc, hd⟩

/-- Witness for `advanceSuccessors_spec`: completing `A` (due day 10,
`today = 5`) with open FS successor `B` (lag 1, start 20, due 22); the
outcome formula moves `B` to `[12, 14]`. -/
theorem advanceSuccessors_spec_witness :
    let tA : Task := { name := "A", status := Status.completed,
                       dueDate := some 10 }
    let tB : Task := { name := "B", status := Status.opn,
                       startDate := some 20, dueDate := some 22 }
    let r1 : DepRow :=
      { parent := "B", dependsOn := "A", depType := DepType.fs, lagDays := 1 }
    let db : DB := { tasks := [tA, tB], deps := [r1] }
    (advanceSuccessorsOnCompletion 5 db "A").deps = db.deps ∧
    (∀ m, (∀ r ∈ advanceSuccRows db "A", r.parent ≠ m) →
      lookupTask (advanceSuccessorsOnCompletion 5 db "A") m =
        lookupTask db m) ∧
    (∀ r ∈ advanceSuccRows db "A", ∀ t, lookupTask db r.parent = some t →
      lookupTask (advanceSuccessorsOnCompletion 5 db "A") r.parent =
        some (advanceOutcome (advanceAnchor 5 db "A") db r t)) := by
  intro tA tB r1 db
  exact advanceSuccessors_spec 5 db "A" (by decide)

end Orga

namespace Orga

/-! ## Fractional ordering (`orga/orga/api/gantt.py`)

`reorder_item` computes the moved item's new `sort_order` from its drop
neighbours — midpoint, `prev + GAP`, `next / 2`, or `GAP` — with a precision
guard: when both neighbours exist and `|next - prev| < MIN_GAP`, every item
of the project (tasks then milestones, stably sorted by current key) is first
renumbered to `(index + 1) * GAP` and the key is recomputed from the
re-fetched neighbours.  Keys are Python floats; they are modelled as exact
rationals, so the statements concern the arithmetic of the formulas, not IEEE
rounding. -/

/-- Task or milestone: the two doctypes sharing the ordering key space. -/
inductive ItemKind
  | task
  | milestone
deriving DecidableEq, Repr

/-- One orderable row: its doctype, primary key and `sort_order`. -/
structure OrderItem where
  kind : ItemKind
  id : String
  key : ℚ
deriving DecidableEq, Repr

/-- `_INITIAL_GAP = 1000.0`. -/
def GAP : ℚ := 1000

/-- `_MIN_GAP = 0.001`. -/
def MIN_GAP : ℚ := 1 / 1000

/-- `frappe.db.set_value(doctype, name, "sort_order", v)`. -/
def setKey (store : List OrderItem) (k : ItemKind) (n : String) (v : ℚ) :
    List OrderItem :=
  store.map (fun i => if i.kind == k && i.id == n then { i with key := v } else i)

/-- Row lookup by doctype and primary key. -/
def findItem (store : List OrderItem) (k : ItemKind) (n : String) :
    Option OrderItem :=
  store.find? (fun i => i.kind == k && i.id == n)

/-- `_get_sort_order`: the stored key,    0 when the row is missing (a falsy
stored value is already 0). -/
def getSortOrder (store : List OrderItem) (k : ItemKind) (n : String) : ℚ :=
  match findItem store k n with
  | some i => i.key
  | none => 0

/-- `_assign_initial_values` for one doctype: when every key of that kind is
0 and some row exists, assign `(index + 1) * GAP` in current order. -/
def assignInitialFor (store : List OrderItem) (k : ItemKind) :
    List OrderItem :=
  let items := store.filter (fun i => i.kind == k)
  if items.all (fun i => i.key == 0) && !items.isEmpty then
    items.enum.foldl
      (fun s p => setKey s k p.2.id (((p.1 : ℚ) + 1) * GAP)) store
  else store

/-- `_initialize_sort_orders`: tasks first, then milestones. -/
def initSortOrders (store : List OrderItem) : List OrderItem :=
  assignInitialFor (assignInitialFor store ItemKind.task) ItemKind.milestone

/-- Stable insertion into a key-sorted list (equal keys keep their order, as
Python's stable `list.sort`). -/
def sortByKeyInsert (i : OrderItem) : List OrderItem → List OrderItem
  | [] => [i]
  | j :: rest =>
      if j.key ≤ i.key then j :: sortByKeyInsert i rest else i :: j :: rest

/-- Stable sort by current key. -/
def sortByKey (l : List OrderItem) : List OrderItem :=
  l.foldr sortByKeyInsert []

/-- `_renumber_all`: collect tasks then milestones, stably sort by current
key, and write `(index + 1) * GAP` to each row. -/
def renumberAll (store : List OrderItem) : List OrderItem :=
  (sortByKey (store.filter (fun i => i.kind == ItemKind.task) ++
      store.filter (fun i => i.kind == ItemKind.milestone))).enum.foldl
    (fun s p => setKey s p.2.kind p.2.id (((p.1 : ℚ) + 1) * GAP)) store

/-- The four-way key computation of `reorder_item`. -/
def computeNewKey (prevS nextS : Option ℚ) : ℚ :=
  match prevS, nextS with
  | some p, some nx => (p + nx) / 2
  | some p, none => p + GAP
  | none, some nx => nx / 2
  | none, none => GAP

/-- Neighbour key resolution: only a neighbour argument whose row exists
yields a key. -/
def resolveNeighbor (store : List OrderItem)
    (arg : Option (ItemKind × String)) : Option ℚ :=
  match arg with
  | none => none
  | some a =>
      if (findItem store a.1 a.2).isSome then
        some (getSortOrder store a.1 a.2)
      else none

/-- Embeds `reorder_item` (project/item existence checks reduced to the item
lookup; the `sort_order`-column checks always pass in a migrated schema). -/
def reorderItem (store : List OrderItem) (k : ItemKind) (n : String)
    (prev next : Option (ItemKind × String)) :
    Except String (List OrderItem × ℚ) :=
  match findItem store k n with
  | none => .error "Item not found"
  | some _ =>
    let store0 := initSortOrders store
    let prevS := resolveNeighbor store0 prev
    let nextS := resolveNeighbor store0 next
    match prevS, nextS with
    | some p, some nx =>
      if |nx - p| < MIN_GAP then
        let store1 := renumberAll store0
        let newKey2 := computeNewKey
          (prev.map (fun a => getSortOrder store1 a.1 a.2))
          (next.map (fun a => getSortOrder store1 a.1 a.2))
        .ok (setKey store1 k n newKey2, newKey2)
      else .ok (setKey store0 k n ((p + nx) / 2), (p + nx) / 2)
    | some p, none => .ok (setKey store0 k n (p + GAP), p + GAP)
    | none, some nx => .ok (setKey store0 k n (nx / 2), nx / 2)
    | none, none => .ok (setKey store0 k n GAP, GAP)

end Orga

namespace Orga

/-- The found row carries the looked-up doctype and primary key. -/
theorem findItem_pair {store : List OrderItem} {k : ItemKind} {n : String}
    {i : OrderItem} (h : findItem store k n = some i) :
    i.kind = k ∧ i.id = n := by
  have := List.find?_some h
  simpa using this

/-- A key write rewrites exactly the looked-up row's key. -/
theorem findItem_setKey_eq (store : List OrderItem) (k : ItemKind) (n : String)
    (v : ℚ) :
    findItem (setKey store k n v) k n =
      (findItem store k n).map (fun i => { i with key := v }) := by
  unfold findItem setKey
  rw [find?_map_comm _ _ (fun i => by
    by_cases h : (i.kind == k && i.id == n) = true
    · simp only [h, if_true]
    · simp only [h, Bool.false_eq_true, if_false]) store]
  cases hf : store.find? (fun i => i.kind == k && i.id == n) with
  | none => rfl
  | some j =>
      have hj := List.find?_some hf
      rw [Option.map_some', Option.map_some', if_pos hj]

/-- A key write leaves every other row's lookup unchanged. -/
theorem findItem_setKey_ne (store : List OrderItem) (k : ItemKind) (n : String)
    (v : ℚ) (k2 : ItemKind) (n2 : String) (h : ¬(k2 = k ∧ n2 = n)) :
    findItem (setKey store k n v) k2 n2 = findItem store k2 n2 := by
  unfold findItem setKey
  rw [find?_map_comm _ _ (fun i => by
    by_cases hc : (i.kind == k && i.id == n) = true
    · simp only [hc, if_true]
    · simp only [hc, Bool.false_eq_true, if_false]) store]
  cases hf : store.find? (fun i => i.kind == k2 && i.id == n2) with
  | none => rfl
  | some j =>
      have hj := List.find?_some hf
      simp only [Bool.and_eq_true, beq_iff_eq] at hj
      have hcond : (j.kind == k && j.id == n) = false := by
        rw [Bool.and_eq_false_iff]
        by_cases hk : j.kind = k
        · refine Or.inr (beq_eq_false_iff_ne.mpr ?_)
          intro hid
          exact h ⟨hj.1 ▸ hk, hj.2 ▸ hid⟩
        · exact Or.inl (beq_eq_false_iff_ne.mpr hk)
      rw [Option.map_some', hcond]
      simp

/-- The renumbering fold does not touch rows whose (doctype, key) pair is not
in the written list. -/
theorem renumber_fold_frame :
    ∀ (L : List (Nat × OrderItem)) (base : List OrderItem) (k2 : ItemKind)
      (n2 : String),
      (∀ p ∈ L, ¬(k2 = p.2.kind ∧ n2 = p.2.id)) →
      findItem (L.foldl
        (fun s p => setKey s p.2.kind p.2.id (((p.1 : ℚ) + 1) * GAP)) base)
        k2 n2 = findItem base k2 n2 := by
  intro L
  induction L with
  | nil => intro base k2 n2 _; rfl
  | cons x L ih =>
      intro base k2 n2 hne
      rw [List.foldl_cons]
      rw [ih _ k2 n2 (fun p hp => hne p (List.mem_cons_of_mem _ hp))]
      exact findItem_setKey_ne base x.2.kind x.2.id _ k2 n2
        (hne x (List.mem_cons_self _ _))

/-- Renumbering writes `(start_index + position + 1) * GAP` to each listed
row (distinct pairs). -/
theorem renumber_fold_get :
    ∀ (L : List OrderItem) (j0 : Nat) (base : List OrderItem),
      (L.map (fun i => (i.kind, i.id))).Nodup →
      ∀ (j : Nat) (hj : j < L.length),
        findItem ((List.enumFrom j0 L).foldl
            (fun s p => setKey s p.2.kind p.2.id (((p.1 : ℚ) + 1) * GAP)) base)
          (L.get ⟨j, hj⟩).kind (L.get ⟨j, hj⟩).id =
        (findItem base (L.get ⟨j, hj⟩).kind (L.get ⟨j, hj⟩).id).map
          (fun i => { i with key := (((j0 + j : Nat) : ℚ) + 1) * GAP }) := by
  intro L
  induction L with
  | nil =>
      intro j0 base _ j hj
      exact absurd hj (by simp)
  | cons x L ih =>
      intro j0 base hnd j hj
      rw [List.map_cons, List.nodup_cons] at hnd
      obtain ⟨hhead, htail⟩ := hnd
      have hpairs : ∀ i ∈ L, ¬(x.kind = i.kind ∧ x.id = i.id) := by
        intro i hi ⟨h1, h2⟩
        exact hhead (by
          rw [List.mem_map]
          exact ⟨i, hi, by rw [h1, h2]⟩)
      have hne2 : ∀ (j2 : Nat) (hj2 : j2 < L.length),
          ¬((L.get ⟨j2, hj2⟩).kind = x.kind ∧ (L.get ⟨j2, hj2⟩).id = x.id) := by
        intro j2 hj2 ⟨h1, h2⟩
        exact hpairs (L.get ⟨j2, hj2⟩) (List.get_mem L j2 hj2) ⟨h1.symm, h2.symm⟩
      show findItem ((List.enumFrom (j0 + 1) L).foldl _
          (setKey base x.kind x.id (((j0 : ℚ) + 1) * GAP))) _ _ = _
      cases j with
      | zero =>
          have hframe := renumber_fold_frame (List.enumFrom (j0 + 1) L)
            (setKey base x.kind x.id (((j0 : ℚ) + 1) * GAP)) x.kind x.id
            (by
              intro p hp
              have hsnd : p.2 ∈ L := by
                have hm : p.2 ∈ (List.enumFrom (j0 + 1) L).map Prod.snd :=
                  List.mem_map_of_mem Prod.snd hp
                rwa [List.enumFrom_map_snd] at hm
              exact hpairs p.2 hsnd)
          have hget : ((x :: L).get ⟨0, hj⟩) = x := rfl
          rw [hget, hframe, findItem_setKey_eq]
          have hz : j0 + 0 = j0 := Nat.add_zero j0
          rw [hz]
      | succ j2 =>
          have hj2 : j2 < L.length := by
            have := hj
            simp only [List.length_cons] at this
            omega
          have hget : ((x :: L).get ⟨j2 + 1, hj⟩) = L.get ⟨j2, hj2⟩ := rfl
          rw [hget, ih (j0 + 1) (setKey base x.kind x.id (((j0 : ℚ) + 1) * GAP))
            htail j2 hj2]
          rw [findItem_setKey_ne base x.kind x.id (((j0 : ℚ) + 1) * GAP)
            (L.get ⟨j2, hj2⟩).kind (L.get ⟨j2, hj2⟩).id (hne2 j2 hj2)]
          have hnat : j0 + 1 + j2 = j0 + (j2 + 1) := by omega
          rw [hnat]

end Orga


namespace Orga

/-- Stable insertion is a permutation. -/
theorem sortByKeyInsert_perm (i : OrderItem) :
    ∀ l : List OrderItem, (sortByKeyInsert i l).Perm (i :: l) := by
  intro l
  induction l with
  | nil => exact List.Perm.refl _
  | cons j rest ih =>
      unfold sortByKeyInsert
      by_cases h : j.key ≤ i.key
      · rw [if_pos h]
        exact (List.Perm.cons j ih).trans (List.Perm.swap i j rest)
      · rw [if_neg h]

/-- The stable sort is a permutation. -/
theorem sortByKey_perm (l : List OrderItem) : (sortByKey l).Perm l := by
  induction l with
  | nil => exact List.Perm.refl _
  | cons x l ih =>
      have : sortByKey (x :: l) = sortByKeyInsert x (sortByKey l) := rfl
      rw [this]
      exact (sortByKeyInsert_perm x (sortByKey l)).trans (List.Perm.cons x ih)

/-- The joint task/milestone list keeps pairwise-distinct (doctype, key)
pairs. -/
theorem pairs_nodup_allItems (store : List OrderItem)
    (hids : (store.map (fun i => (i.kind, i.id))).Nodup) :
    ((store.filter (fun i => i.kind == ItemKind.task) ++
        store.filter (fun i => i.kind == ItemKind.milestone)).map
      (fun i => (i.kind, i.id))).Nodup := by
  rw [List.map_append, List.nodup_append]
  refine ⟨?_, ?_, ?_⟩
  · exact hids.sublist (List.Sublist.map _ (List.filter_sublist store))
  · exact hids.sublist (List.Sublist.map _ (List.filter_sublist store))
  · intro a ha hb
    rw [List.mem_map] at ha hb
    obtain ⟨i, hi, hia⟩ := ha
    obtain ⟨j, hj, hja⟩ := hb
    have hik : i.kind = ItemKind.task := by
      have := List.of_mem_filter hi
      simpa using this
    have hjk : j.kind = ItemKind.milestone := by
      have := List.of_mem_filter hj
      simpa using this
    rw [← hja] at hia
    have : i.kind = j.kind := congrArg Prod.fst hia
    rw [hik, hjk] at this
    cases this

/-- C10: the moved item's new key is the midpoint `(prev + next)/2` when both
neighbours' keys are present, `prev + GAP` with only a previous neighbour,
`next / 2` with only a next neighbour, and `GAP` with neither; and when
`|next - prev| < MIN_GAP`, all items of the project are first renumbered to
evenly spaced `(index + 1) * GAP` keys in current key order (stably sorted,
tasks before milestones on equal keys) before the key is recomputed from the
re-fetched neighbours and written. -/
theorem reorderItem_spec (store : List OrderItem) (k : ItemKind) (n : String)
    (prev next : Option (ItemKind × String)) (it : OrderItem)
    (hit : findItem store k n = some it)
    (hinit : initSortOrders store = store)
    (hids : (store.map (fun i => (i.kind, i.id))).Nodup) :
    (∀ p nx, resolveNeighbor store prev = some p →
      resolveNeighbor store next = some nx → ¬ |nx - p| < MIN_GAP →
      reorderItem store k n prev next =
        .ok (setKey store k n ((p + nx) / 2), (p + nx) / 2)) ∧
    (∀ p, resolveNeighbor store prev = some p →
      resolveNeighbor store next = none →
      reorderItem store k n prev next =
        .ok (setKey store k n (p + GAP), p + GAP)) ∧
    (∀ nx, resolveNeighbor store prev = none →
      resolveNeighbor store next = some nx →
      reorderItem store k n prev next =
        .ok (setKey store k n (nx / 2), nx / 2)) ∧
    (resolveNeighbor store prev = none → resolveNeighbor store next = none →
      reorderItem store k n prev next =
        .ok (setKey store k n GAP, GAP)) ∧
    (∀ p nx, resolveNeighbor store prev = some p →
      resolveNeighbor store next = some nx → |nx - p| < MIN_GAP →
      reorderItem store k n prev next =
        .ok (setKey (renumberAll store) k n
            (computeNewKey
              (prev.map (fun a => getSortOrder (renumberAll store) a.1 a.2))
              (next.map (fun a => getSortOrder (renumberAll store) a.1 a.2))),
          computeNewKey
            (prev.map (fun a => getSortOrder (renumberAll store) a.1 a.2))
            (next.map (fun a => getSortOrder (renumberAll store) a.1 a.2)))) ∧
    (∀ (j : Nat) (hj : j < (sortByKey
        (store.filter (fun i => i.kind == ItemKind.task) ++
          store.filter (fun i => i.kind == ItemKind.milestone))).length),
      getSortOrder (renumberAll store)
        ((sortByKey (store.filter (fun i => i.kind == ItemKind.task) ++
            store.filter (fun i => i.kind == ItemKind.milestone))).get
          ⟨j, hj⟩).kind
        ((sortByKey (store.filter (fun i => i.kind == ItemKind.task) ++
            store.filter (fun i => i.kind == ItemKind.milestone))).get
          ⟨j, hj⟩).id = ((j : ℚ) + 1) * GAP) := by
  have hboth : ∀ p nx, resolveNeighbor store prev = some p →
      resolveNeighbor store next = some nx →
      reorderItem store k n prev next =
        (if |nx - p| < MIN_GAP then
          .ok (setKey (renumberAll store) k n
            (computeNewKey
              (prev.map (fun a => getSortOrder (renumberAll store) a.1 a.2))
              (next.map (fun a => getSortOrder (renumberAll store) a.1 a.2))),
            computeNewKey
              (prev.map (fun a => getSortOrder (renumberAll store) a.1 a.2))
              (next.map (fun a => getSortOrder (renumberAll store) a.1 a.2)))
        else .ok (setKey store k n ((p + nx) / 2), (p + nx) / 2)) := by
    intro p nx hp hn
    simp only [reorderItem, hit, hinit, hp, hn]
  refine ⟨?_, ?_, ?_, ?_, ?_, ?_⟩
  · intro p nx hp hn hlt
    rw [hboth p nx hp hn, if_neg hlt]
  · intro p hp hn
    simp only [reorderItem, hit, hinit, hp, hn]
  · intro nx hp hn
    simp only [reorderItem, hit, hinit, hp, hn]
  · intro hp hn
    simp only [reorderItem, hit, hinit, hp, hn]
  · intro p nx hp hn hlt
    rw [hboth p nx hp hn, if_pos hlt]
  · intro j hj
    have hnd : ((sortByKey (store.filter (fun i => i.kind == ItemKind.task) ++
        store.filter (fun i => i.kind == ItemKind.milestone))).map
          (fun i => (i.kind, i.id))).Nodup :=
      ((sortByKey_perm _).map _).nodup_iff.mpr (pairs_nodup_allItems store hids)
    have hfold := renumber_fold_get
      (sortByKey (store.filter (fun i => i.kind == ItemKind.task) ++
        store.filter (fun i => i.kind == ItemKind.milestone))) 0 store hnd j hj
    have hmemL := List.get_mem
      (sortByKey (store.filter (fun i => i.kind == ItemKind.task) ++
        store.filter (fun i => i.kind == ItemKind.milestone))) j hj
    have hmem : (sortByKey (store.filter (fun i => i.kind == ItemKind.task) ++
        store.filter (fun i => i.kind == ItemKind.milestone))).get ⟨j, hj⟩ ∈
          store := by
      have h2 := ((sortByKey_perm _).mem_iff).mp hmemL
      rcases List.mem_append.mp h2 with h | h
      · exact List.mem_of_mem_filter h
      · exact List.mem_of_mem_filter h
    have hsome : (findItem store
        ((sortByKey (store.filter (fun i => i.kind == ItemKind.task) ++
          store.filter (fun i => i.kind == ItemKind.milestone))).get
            ⟨j, hj⟩).kind
        ((sortByKey (store.filter (fun i => i.kind == ItemKind.task) ++
          store.filter (fun i => i.kind == ItemKind.milestone))).get
            ⟨j, hj⟩).id).isSome := by
      rw [findItem, List.find?_isSome]
      exact ⟨_, hmem, by simp⟩
    cases hf : findItem store
        ((sortByKey (store.filter (fun i => i.kind == ItemKind.task) ++
          store.filter (fun i => i.kind == ItemKind.milestone))).get
            ⟨j, hj⟩).kind
        ((sortByKey (store.filter (fun i => i.kind == ItemKind.task) ++
          store.filter (fun i => i.kind == ItemKind.milestone))).get
            ⟨j, hj⟩).id with
    | none =>
        rw [hf] at hsome
        cases hsome
    | some itm =>
        rw [hf, Option.map_some'] at hfold
        unfold getSortOrder
        have hre : renumberAll store =
            (List.enumFrom 0 (sortByKey
              (store.filter (fun i => i.kind == ItemKind.task) ++
                store.filter (fun i => i.kind == ItemKind.milestone)))).foldl
              (fun s p => setKey s p.2.kind p.2.id (((p.1 : ℚ) + 1) * GAP))
              store := rfl
        rw [hre, hfold]
        norm_num

end Orga


namespace Orga

/-- Witness for `reorderItem_spec`: three tasks with keys 10, 20 and 5000;
moving `C` between `A` (key 10) and `B` (key 20). -/
theorem reorderItem_spec_witness :
    let iA : OrderItem := { kind := ItemKind.task, id := "A", key := 10 }
    let iB : OrderItem := { kind := ItemKind.task, id := "B", key := 20 }
    let iC : OrderItem := { kind := ItemKind.task, id := "C", key := 5000 }
    let store : List OrderItem := [iA, iB, iC]
    let prev : Option (ItemKind × String) := some (ItemKind.task, "A")
    let next : Option (ItemKind × String) := some (ItemKind.task, "B")
    (∀ p nx, resolveNeighbor store prev = some p →
      resolveNeighbor store next = some nx → ¬ |nx - p| < MIN_GAP →
      reorderItem store ItemKind.task "C" prev next =
        .ok (setKey store ItemKind.task "C" ((p + nx) / 2), (p + nx) / 2)) ∧
    reorderItem store ItemKind.task "C" prev next =
      .ok (setKey store ItemKind.task "C" 15, 15) := by
  intro iA iB iC store prev next
  have h := reorderItem_spec store ItemKind.task "C" prev next iC rfl
    (by decide) (by decide)
  refine ⟨h.1, ?_⟩
  have h15 := h.1 10 20 rfl rfl (by
    rw [MIN_GAP]
    norm_num)
  have : ((10 : ℚ) + 20) / 2 = 15 := by norm_num
  rw [this] at h15
  exact h15

end Orga

namespace Orga

/-! ## Critical path (`get_critical_path` in `orga/orga/api/project.py`)

The calculation filters the project's non-terminal tasks, keeps the
Finish-to-Start dependencies between them, topologically orders the tasks by
Kahn's algorithm (appending any residual nodes), converts dates to day
offsets from the project start, runs the forward pass
`ES[n] = max(EF[p] + lag)` (else the task's own start offset),
`EF[n] = ES[n] + duration` with `duration = max(1, (due - start) + 1)`, runs
the backward pass `LF[n] = min(LS[s] - lag)` (else the project end offset),
`LS[n] = LF[n] - duration`, and returns `float[n] = LS[n] - ES[n]` with the
critical set `{n : float[n] ≤ 0}`.  Python's insertion-ordered dict/set
iteration is modelled by the task-list order; Kahn's loop gets fuel that
exceeds the total number of queue insertions. -/

/-- `duration = (due - start).days + 1` when both dates exist, else 1, with
minimum 1. -/
def cpDuration (t : Task) : Int :=
  max 1 (match t.startDate, t.dueDate with
    | some s, some d => (d - s) + 1
    | _, _ => 1)

/-- `date_to_day`: day offset from the project start, 0 for a missing date. -/
def dateToDay (projStart : Date) (d : Option Date) : Int :=
  match d with
  | none => 0
  | some d => d - projStart

/-- The non-terminal tasks of the project. -/
def cpActive (tasks : List Task) : List Task :=
  tasks.filter (fun t =>
    !(t.status == Status.completed || t.status == Status.cancelled))

/-- The Finish-to-Start rows between active tasks. -/
def cpFsDeps (names : List String) (deps : List DepRow) : List DepRow :=
  deps.filter (fun r =>
    r.depType == DepType.fs && names.contains r.dependsOn &&
      names.contains r.parent)

/-- `predecessors[succ] = [(pred, lag), ...]` in row order. -/
def cpPreds (fsDeps : List DepRow) (nm : String) : List (String × Int) :=
  (fsDeps.filter (fun r => r.parent == nm)).map (fun r => (r.dependsOn, r.lagDays))

/-- `successors[pred] = [(succ, lag), ...]` in row order. -/
def cpSuccs (fsDeps : List DepRow) (nm : String) : List (String × Int) :=
  (fsDeps.filter (fun r => r.dependsOn == nm)).map (fun r => (r.parent, r.lagDays))

/-- One dequeue step of Kahn's algorithm: append the node to the order,
decrement each successor's in-degree and enqueue those that reach zero. -/
def kahnStep (succs : String → List (String × Int)) (node : String)
    (queue : List String) (indeg : String → Int) :
    List String × (String → Int) :=
  (succs node).foldl (fun st p =>
    let ind2 := fun m => if m = p.1 then st.2 p.1 - 1 else st.2 m
    if ind2 p.1 = 0 then (st.1 ++ [p.1], ind2) else (st.1, ind2))
    (queue, indeg)

/-- Kahn's while-loop with explicit fuel (the fuel passed by
`cpTopoOrder` exceeds any possible number of iterations). -/
def kahnLoop (succs : String → List (String × Int)) :
    Nat → List String → (String → Int) → List String → List String
  | 0, _, _, topo => topo
  | fuel + 1, queue, indeg, topo =>
    match queue with
    | [] => topo
    | node :: rest =>
        let st := kahnStep succs node rest indeg
        kahnLoop succs fuel st.1 st.2 (topo ++ [node])

/-- The topological order: Kahn's algorithm, then any residual nodes. -/
def cpTopoOrder (names : List String) (fsDeps : List DepRow) : List String :=
  let indeg := fun nm => ((cpPreds fsDeps nm).length : Int)
  let queue := names.filter (fun nm => indeg nm == 0)
  let topo := kahnLoop (cpSuccs fsDeps)
    (names.length + fsDeps.length) queue indeg []
  topo ++ names.filter (fun nm => !(topo.contains nm))

/-- Pointwise update of an association function. -/
def assocUpdate (f : String → Option Int) (nm : String) (v : Int) :
    String → Option Int :=
  fun m => if m = nm then some v else f m

/-- The forward pass: early start and early finish. -/
def cpForward (projStart : Date) (taskMap : String → Option Task)
    (preds : String → List (String × Int)) (topo : List String) :
    (String → Option Int) × (String → Option Int) :=
  topo.foldl (fun st nm =>
    match taskMap nm with
    | none => st
    | some info =>
      let cands := (preds nm).filterMap (fun p => (st.2 p.1).map (fun v => v + p.2))
      let esv := match cands.foldl foldMaxStep none with
        | some m => m
        | none => dateToDay projStart info.startDate
      (assocUpdate st.1 nm esv, assocUpdate st.2 nm (esv + cpDuration info)))
    ((fun _ => none), (fun _ => none))

/-- The backward pass: late finish and late start. -/
def cpBackward (projEndDay : Int) (taskMap : String → Option Task)
    (succs : String → List (String × Int)) (topo : List String) :
    (String → Option Int) × (String → Option Int) :=
  topo.reverse.foldl (fun st nm =>
    match taskMap nm with
    | none => st
    | some info =>
      let cands := (succs nm).filterMap (fun p => (st.2 p.1).map (fun v => v - p.2))
      let lfv := match cands.foldl foldMinStep none with
        | some m => m
        | none => projEndDay
      (assocUpdate st.1 nm lfv, assocUpdate st.2 nm (lfv - cpDuration info)))
    ((fun _ => none), (fun _ => none))

/-- Embeds `get_critical_path`: the pair is (`task_floats` in topological
order, `critical_tasks`). -/
def getCriticalPath (projStart projEnd : Option Date) (tasks : List Task)
    (deps : List DepRow) : List (String × Int) × List String :=
  match projStart, projEnd with
  | some ps, some pe =>
      let active := cpActive tasks
      if active.isEmpty then ([], [])
      else
        let names := active.map (fun t => t.name)
        let taskMap := fun nm => active.find? (fun t => t.name == nm)
        let fsDeps := cpFsDeps names deps
        let topo := cpTopoOrder names fsDeps
        let fwd := cpForward ps taskMap (cpPreds fsDeps) topo
        let bwd := cpBackward (pe - ps) taskMap (cpSuccs fsDeps) topo
        let floats := topo.map (fun nm =>
          (nm, ((bwd.2 nm).getD 0) - ((fwd.1 nm).getD 0)))
        (floats, (floats.filter (fun p => p.2 ≤ 0)).map (fun p => p.1))
  | _, _ => ([], [])

/-- C3 counterexample to the claim as stated: the project spans days 0..5,
with the chain `A [0,1] → B [2,3] → C [4,5]` of open tasks exactly covering
the window back to back; the calculation yields float −1 for every task (the
forward pass uses the inclusive duration `(end−start)+1` while the backward
pass anchors at the project end *offset*), not float 0 — all three tasks are
nevertheless in the critical set. -/
theorem getCriticalPath_chain_counterexample :
    let tA : Task := { name := "A", startDate := some 0, dueDate := some 1 }
    let tB : Task := { name := "B", startDate := some 2, dueDate := some 3 }
    let tC : Task := { name := "C", startDate := some 4, dueDate := some 5 }
    let dBA : DepRow :=
      { parent := "B", dependsOn := "A", depType := DepType.fs, lagDays := 0 }
    let dCB : DepRow :=
      { parent := "C", dependsOn := "B", depType := DepType.fs, lagDays := 0 }
    getCriticalPath (some 0) (some 5) [tA, tB, tC] [dBA, dCB] =
      ([("A", -1), ("B", -1), ("C", -1)], ["A", "B", "C"]) ∧
    (-1 : Int) ≠ 0 := by
  constructor
  · rfl
  · decide

end Orga

namespace Orga

/-- C3 (amended): for every project window `[S, E]` and every linear chain of
three non-terminal tasks `A → B → C` (FS, lag 0) whose dates exactly span the
window back to back, the calculation yields float −1 for all three tasks
(the forward pass counts inclusive durations `(end − start) + 1` while the
backward pass anchors at the project end offset `E − S`), and all three tasks
are in the critical set. -/
theorem getCriticalPath_chain_spec (nA nB nC : String) (S a b E : Int)
    (sA sB sC : Status)
    (hAB : nA ≠ nB) (hAC : nA ≠ nC) (hBC : nB ≠ nC)
    (h1 : S ≤ a) (h2 : a + 1 ≤ b) (h3 : b + 1 ≤ E)
    (hsA1 : sA ≠ Status.completed) (hsA2 : sA ≠ Status.cancelled)
    (hsB1 : sB ≠ Status.completed) (hsB2 : sB ≠ Status.cancelled)
    (hsC1 : sC ≠ Status.completed) (hsC2 : sC ≠ Status.cancelled) :
    getCriticalPath (some S) (some E)
      [{ name := nA, status := sA, startDate := some S, dueDate := some a },
       { name := nB, status := sB, startDate := some (a + 1), dueDate := some b },
       { name := nC, status := sC, startDate := some (b + 1), dueDate := some E }]
      [{ parent := nB, dependsOn := nA, depType := DepType.fs, lagDays := 0 },
       { parent := nC, dependsOn := nB, depType := DepType.fs, lagDays := 0 }] =
      ([(nA, -1), (nB, -1), (nC, -1)], [nA, nB, nC]) := by
  have eAB : (nA == nB) = false := beq_eq_false_iff_ne.mpr hAB
  have eBA : (nB == nA) = false := beq_eq_false_iff_ne.mpr hAB.symm
  have eAC : (nA == nC) = false := beq_eq_false_iff_ne.mpr hAC
  have eCA : (nC == nA) = false := beq_eq_false_iff_ne.mpr hAC.symm
  have eBC : (nB == nC) = false := beq_eq_false_iff_ne.mpr hBC
  have eCB : (nC == nB) = false := beq_eq_false_iff_ne.mpr hBC.symm
  have fA1 : (sA == Status.completed) = false := beq_eq_false_iff_ne.mpr hsA1
  have fA2 : (sA == Status.cancelled) = false := beq_eq_false_iff_ne.mpr hsA2
  have fB1 : (sB == Status.completed) = false := beq_eq_false_iff_ne.mpr hsB1
  have fB2 : (sB == Status.cancelled) = false := beq_eq_false_iff_ne.mpr hsB2
  have fC1 : (sC == Status.completed) = false := beq_eq_false_iff_ne.mpr hsC1
  have fC2 : (sC == Status.cancelled) = false := beq_eq_false_iff_ne.mpr hsC2
  have hBA : nB ≠ nA := hAB.symm
  have hCA : nC ≠ nA := hAC.symm
  have hCB : nC ≠ nB := hBC.symm
  simp [getCriticalPath, cpActive, cpFsDeps, cpTopoOrder, cpPreds,
    cpSuccs, kahnLoop, kahnStep, cpForward, cpBackward, assocUpdate,
    cpDuration, dateToDay, foldMaxStep, foldMinStep,
    List.filter, List.contains, List.elem,
    List.isEmpty, List.filterMap, List.find?,
    eAB, eBA, eAC, eCA, eBC, eCB,
    fA1, fA2, fB1, fB2, fC1, fC2,
    hAB, hAC, hBC, hBA, hCA, hCB]
  have m1 : (1 : Int) ⊔ (a - S + 1) = a - S + 1 := by omega
  have m2 : (1 : Int) ⊔ (b - (a + 1) + 1) = b - (a + 1) + 1 := by omega
  have m3 : (1 : Int) ⊔ (E - (b + 1) + 1) = E - (b + 1) + 1 := by omega
  simp only [m1, m2, m3]
  have d2 : decide (E ≤ a - S + 1 + (b - (a + 1) + 1) + (E - (b + 1) + 1) + S) = true :=
    decide_eq_true (by omega)
  simp only [d2, Bool.or_true, List.map]
  refine ⟨⟨by ring, by ring⟩, trivial⟩

/-- The chain theorem instantiated on the project window `[0, 5]` with the
open chain `A [0,1] → B [2,3] → C [4,5]`. -/
theorem getCriticalPath_chain_spec_witness :
    getCriticalPath (some 0) (some 5)
      [{ name := "A", status := Status.opn, startDate := some 0, dueDate := some 1 },
       { name := "B", status := Status.opn, startDate := some (1 + 1), dueDate := some 3 },
       { name := "C", status := Status.opn, startDate := some (3 + 1), dueDate := some 5 }]
      [{ parent := "B", dependsOn := "A", depType := DepType.fs, lagDays := 0 },
       { parent := "C", dependsOn := "B", depType := DepType.fs, lagDays := 0 }] =
      ([("A", -1), ("B", -1), ("C", -1)], ["A", "B", "C"]) :=
  getCriticalPath_chain_spec "A" "B" "C" 0 1 3 5 Status.opn Status.opn Status.opn
    (by decide) (by decide) (by decide) (by decide) (by decide) (by decide)
    (by decide) (by decide) (by decide) (by decide) (by decide) (by decide)

end Orga
